import Mathlib

/-!
Verification of the Lights Out GF(2) solver (src/lights_out.py).

The Python source is shallowly embedded: boards and matrix rows are
lists of natural numbers (the program only ever stores 0/1 in them),
in-place list mutation becomes functional update (`List.set`), and the
bitwise xor `^=` becomes `Nat.xor`.  Python indexing `xs[i]` is
embedded as `List.getD xs i 0` (resp. `[]` for rows); every access the
program performs is in range under the well-formedness hypotheses
carried by the theorems, so the default value is never observed there.

A second, heap-based embedding at the end of the file models Python's
reference semantics (lists as heap cells, argument passing by
reference) in order to settle the frame/mutation claims about
`get_solution` and `is_solvable`.
-/

namespace LightsOut

/-- Matrix/row entry access: `matrix[i][j]` in the source. -/
def entry (m : List (List Nat)) (i j : Nat) : Nat :=
  (m.getD i []).getD j 0

/-- Embeds the body of the loop in `create_vector_representations`
(src lines 34-45): the toggle vector of cell `i`, built exactly as in
the source by setting positions `i`, `i-1`, `i+1`, `i-n`, `i+n` of an
all-zero list of length `n*n` to `1` under the source's guards. -/
def make_vector (n i : Nat) : List Nat :=
  let v0 := (List.replicate (n * n) 0).set i 1
  let v1 := if i % n ≠ 0 then v0.set (i - 1) 1 else v0
  let v2 := if i % n ≠ n - 1 then v1.set (i + 1) 1 else v1
  let v3 := if n ≤ i then v2.set (i - n) 1 else v2
  let v4 := if i < n * (n - 1) then v3.set (i + n) 1 else v3
  v4

/-- `create_vector_representations` (src lines 22-46). -/
def create_vector_representations (n : Nat) : List (List Nat) :=
  (List.range (n * n)).map (make_vector n)

/-- `create_augmented_matrix` (src lines 49-62):
`[vec + [board[i]] for i, vec in enumerate(vectors)]`. -/
def create_augmented_matrix (vectors : List (List Nat)) (board : List Nat) :
    List (List Nat) :=
  vectors.enum.map (fun p => p.2 ++ [board.getD p.1 0])

/-- The pivot search of `gauss_jordan_elimination` (src lines 101-105):
first `i` in `range(r, rows)` with `matrix[i][c] == 1`. -/
def findPivot (m : List (List Nat)) (r c : Nat) : Option Nat :=
  (List.range' r (m.length - r)).find? (fun i => entry m i c == 1)

/-- Row swap `matrix[r], matrix[p] = matrix[p], matrix[r]` (src line 109). -/
def swapRows (m : List (List Nat)) (r p : Nat) : List (List Nat) :=
  (m.set r (m.getD p [])).set p (m.getD r [])

/-- The elimination pass of one column (src lines 110-113): XOR the
pivot row into every other row having a `1` in column `c`. -/
def elimStep (m : List (List Nat)) (r c : Nat) : List (List Nat) :=
  let pivotRow := m.getD r []
  m.mapIdx fun i row =>
    if i ≠ r && row.getD c 0 == 1 then List.zipWith Nat.xor row pivotRow else row

/-- One iteration of the column loop of `gauss_jordan_elimination`
(src lines 98-114), returning the updated matrix and pivot cursor. -/
def gjeStep (m : List (List Nat)) (r c : Nat) : List (List Nat) × Nat :=
  match findPivot m r c with
  | none => (m, r)
  | some p =>
    let m1 := if r ≠ p then swapRows m r p else m
    (elimStep m1 r c, r + 1)

/-- The column loop of `gauss_jordan_elimination`; `cs` is the list of
remaining column indices, `r` the pivot cursor.  The source's
`if r >= rows: break` becomes returning the matrix unchanged. -/
def gjeGo (m : List (List Nat)) (r : Nat) : List Nat → List (List Nat)
  | [] => m
  | c :: cs =>
    if m.length ≤ r then m
    else
      let s := gjeStep m r c
      gjeGo s.1 s.2 cs

/-- `gauss_jordan_elimination` (src lines 85-115).  The source reads
`cols = len(matrix[0])` and iterates `c` over `range(cols - 1)`. -/
def gauss_jordan_elimination (matrix : List (List Nat)) : List (List Nat) :=
  gjeGo matrix 0 (List.range ((matrix.getD 0 []).length - 1))

/-- The per-row test of `is_solvable` (src line 130):
`row[-1] == 1 and all(val == 0 for val in row[:-1])`. -/
def contradictionRow (row : List Nat) : Bool :=
  row.getLastD 0 == 1 && row.dropLast.all (fun v => v == 0)

/-- `is_solvable` (src lines 118-132).  Note the source reduces its
argument in place and scans the reduced rows. -/
def is_solvable (matrix : List (List Nat)) : Bool :=
  !((gauss_jordan_elimination matrix).any contradictionRow)

/-- `get_solution` (src lines 135-159).  In the source, the call
`is_solvable(matrix)` reduces `matrix` in place, so the subsequent
explicit `gauss_jordan_elimination(matrix)` call on line 151 runs on
the already-reduced matrix; the embedding reflects this by applying
`gauss_jordan_elimination` twice. -/
def get_solution (board : List Nat) (n : Nat) : Option (List Nat) :=
  let vectors := create_vector_representations n
  let matrix := create_augmented_matrix vectors board
  if !(is_solvable matrix) then none
  else
    let reduced := gauss_jordan_elimination matrix
    let rref_matrix := gauss_jordan_elimination reduced
    some ((rref_matrix.take (n * n)).map (fun row => row.getLastD 0))

/-- The body of one iteration of the `check_solution` loop (src lines
176-184): flip cell `i` and its in-bounds neighbours.  The guards make
every truncated subtraction exact. -/
def toggleAt (n : Nat) (board : List Nat) (i : Nat) : List Nat :=
  let b0 := board.set i (board.getD i 0 ^^^ 1)
  let b1 := if i % n ≠ 0 then b0.set (i - 1) (b0.getD (i - 1) 0 ^^^ 1) else b0
  let b2 := if i % n ≠ n - 1 then b1.set (i + 1) (b1.getD (i + 1) 0 ^^^ 1) else b1
  let b3 := if n ≤ i then b2.set (i - n) (b2.getD (i - n) 0 ^^^ 1) else b2
  let b4 := if i < n * (n - 1) then b3.set (i + n) (b3.getD (i + n) 0 ^^^ 1) else b3
  b4

/-- `check_solution` (src lines 162-185): replay the toggles of every
index whose solution bit is `1`, then test that the board is all-zero. -/
def check_solution (board solution : List Nat) (n : Nat) : Bool :=
  let final := (List.range (n * n)).foldl
    (fun b i => if solution.getD i 0 == 1 then toggleAt n b i else b) board
  final.all (fun v => v == 0)

/-- Pointwise XOR of two bit vectors: GF(2) vector addition. -/
def xorVec (a b : List Nat) : List Nat :=
  List.zipWith Nat.xor a b

/-- The linear-operator side of claim C2, following the claim's words:
the GF(2) sum of `create_vector_representations n`'s vectors over
every index `i` with `solution[i] = 1`. -/
def selectedVectorSum (solution : List Nat) (n : Nat) : List Nat :=
  (List.range (n * n)).foldl
    (fun acc i =>
      if solution.getD i 0 == 1 then
        xorVec acc ((create_vector_representations n).getD i [])
      else acc)
    (List.replicate (n * n) 0)


/-! ### Matrix well-formedness and GF(2) semantics -/

/-- Rectangularity: every row has length `c` (the source reads
`cols = len(matrix[0])` and indexes every row up to `cols`). -/
def Rect (m : List (List Nat)) (c : Nat) : Prop := ∀ row ∈ m, row.length = c

/-- Every entry is a bit. -/
def Bits (xs : List Nat) : Prop := ∀ x ∈ xs, x < 2

/-- Every entry of the matrix is a bit. -/
def BitsM (m : List (List Nat)) : Prop := ∀ row ∈ m, Bits row

instance (xs : List Nat) : Decidable (Bits xs) := by
  unfold Bits
  infer_instance

instance (m : List (List Nat)) (c : Nat) : Decidable (Rect m c) := by
  unfold Rect
  infer_instance

instance (m : List (List Nat)) : Decidable (BitsM m) := by
  unfold BitsM
  infer_instance

/-- GF(2) dot product. -/
def dot2 (u x : List Nat) : Nat := (List.zipWith (fun a b => a * b) u x).sum % 2

/-- `x` satisfies the affine GF(2) equation encoded by an augmented
row: coefficients dotted with `x` equal the augmented entry. -/
def SatRow (x row : List Nat) : Prop := dot2 row.dropLast x = row.getLastD 0

/-- `x` solves the whole augmented system. -/
def SatSys (m : List (List Nat)) (x : List Nat) : Prop :=
  ∀ i, i < m.length → SatRow x (m.getD i [])

/-- Loop invariant of `gauss_jordan_elimination`: after processing
columns `< c` with pivot cursor `r`, the rows `0..r-1` carry pivots in
the strictly increasing columns `pv`, each pivot column is `1` in its
own row and `0` everywhere else, rows at or beyond the cursor vanish
on all processed columns, and each pivot row vanishes before its pivot
column.  `w` is the number of coefficient columns. -/
structure RREFState (m : List (List Nat)) (w c r : Nat) (pv : List Nat) : Prop where
  plen : pv.length = r
  rle : r ≤ m.length
  pub : ∀ p ∈ pv, p < c
  pmono : ∀ a b, a < b → b < pv.length → pv.getD a 0 < pv.getD b 0
  pone : ∀ j, j < pv.length → entry m j (pv.getD j 0) = 1
  pzero : ∀ j, j < pv.length → ∀ i, i < m.length → i ≠ j → entry m i (pv.getD j 0) = 0
  below : ∀ i, r ≤ i → i < m.length → ∀ q, q < c → entry m i q = 0
  lead : ∀ j, j < pv.length → ∀ q, q < pv.getD j 0 → entry m j q = 0


/-! ### Heap model of Python reference semantics

Python lists are heap objects passed by reference; `check_solution`,
`is_solvable` and `gauss_jordan_elimination` mutate them in place.  To
settle the frame/mutation claims, the relevant functions are embedded
a second time against an explicit heap: integer lists (boards, matrix
rows) and reference lists (the matrix object, whose elements are row
references) live in numbered cells. -/

/-- A heap cell: a Python list of ints, or the matrix list whose
elements are references to row cells. -/
inductive HVal
  | ints (xs : List Nat)
  | refs (rs : List Nat)

/-- The heap: cell `r` holds `h.getD r (HVal.ints [])`. -/
abbrev Heap := List HVal

/-- Read an integer-list cell. -/
def readInts (h : Heap) (r : Nat) : List Nat :=
  match h.getD r (HVal.ints []) with
  | HVal.ints xs => xs
  | HVal.refs _ => []

/-- Read a reference-list cell. -/
def readRefs (h : Heap) (r : Nat) : List Nat :=
  match h.getD r (HVal.ints []) with
  | HVal.ints _ => []
  | HVal.refs rs => rs

/-- Overwrite a heap cell. -/
def hwrite (h : Heap) (r : Nat) (v : HVal) : Heap := h.set r v

/-- `matrix[i]`: the reference held at index `i` of the matrix object. -/
def rowRef (h : Heap) (mref i : Nat) : Nat := (readRefs h mref).getD i 0

/-- `matrix[i][c]` read through the heap. -/
def hentry (h : Heap) (mref i c : Nat) : Nat :=
  (readInts h (rowRef h mref i)).getD c 0

/-- The matrix of row values currently denoted by the heap matrix. -/
def matVals (h : Heap) (mref : Nat) : List (List Nat) :=
  (readRefs h mref).map (readInts h)

/-- Heap version of the pivot search (src lines 101-105). -/
def hFindPivot (h : Heap) (mref r c : Nat) : Option Nat :=
  (List.range' r ((readRefs h mref).length - r)).find?
    (fun i => hentry h mref i c == 1)

/-- Heap version of the row swap (src line 109): the two references
are exchanged inside the matrix object. -/
def hSwap (h : Heap) (mref r p : Nat) : Heap :=
  hwrite h mref (HVal.refs
    (((readRefs h mref).set r ((readRefs h mref).getD p 0)).set p
      ((readRefs h mref).getD r 0)))

/-- Heap version of the inner loop `for j in range(cols):
matrix[i][j] ^= matrix[r][j]` (src lines 112-113), writing into the
target row cell element by element. -/
def hXorLoop (h : Heap) (ti si : Nat) : List Nat → Heap
  | [] => h
  | j :: js =>
    hXorLoop
      (hwrite h ti (HVal.ints ((readInts h ti).set j
        ((readInts h ti).getD j 0 ^^^ (readInts h si).getD j 0)))) ti si js

/-- Heap version of the elimination pass (src lines 110-113). -/
def hElimLoop (h : Heap) (mref r c cols : Nat) : List Nat → Heap
  | [] => h
  | i :: rest =>
    hElimLoop
      (if i ≠ r && hentry h mref i c == 1 then
        hXorLoop h (rowRef h mref i) (rowRef h mref r) (List.range cols)
      else h) mref r c cols rest

/-- Heap version of the column loop of `gauss_jordan_elimination`. -/
def hGjeGo (h : Heap) (mref r rows cols : Nat) : List Nat → Heap
  | [] => h
  | c :: cs =>
    if rows ≤ r then h
    else
      match hFindPivot h mref r c with
      | none => hGjeGo h mref r rows cols cs
      | some p =>
        hGjeGo
          (hElimLoop (if r ≠ p then hSwap h mref r p else h) mref r c cols
            (List.range rows))
          mref (r + 1) rows cols cs

/-- Heap version of `gauss_jordan_elimination` (src lines 85-115),
mutating the matrix rows in place through the heap. -/
def hGje (h : Heap) (mref : Nat) : Heap :=
  hGjeGo h mref 0 (readRefs h mref).length
    (readInts h (rowRef h mref 0)).length
    (List.range ((readInts h (rowRef h mref 0)).length - 1))

/-- Heap version of `is_solvable` (src lines 118-132): it reduces its
argument in place and scans the reduced rows through the same
reference. -/
def hIsSolvable (h : Heap) (mref : Nat) : Heap × Bool :=
  (hGje h mref, !((matVals (hGje h mref) mref).any contradictionRow))

/-- Allocate fresh integer-list cells, one per row value, returning
their references in order (the fresh lists built by
`create_augmented_matrix`, src line 61). -/
def allocRows (h : Heap) : List (List Nat) → Heap × List Nat
  | [] => (h, [])
  | row :: rest =>
    let s := allocRows (h ++ [HVal.ints row]) rest
    (s.1, h.length :: s.2)

/-- Heap version of `get_solution` (src lines 135-159): the augmented
matrix is built from freshly allocated row cells plus a fresh matrix
object; `is_solvable` reduces it in place; the explicit second
`gauss_jordan_elimination` call runs on the same object. -/
def hGetSolution (h : Heap) (bref n : Nat) : Heap × Option (List Nat) :=
  let rows := create_augmented_matrix (create_vector_representations n)
    (readInts h bref)
  let s := allocRows h rows
  let h2 := s.1 ++ [HVal.refs s.2]
  let mref := s.1.length
  let t := hIsSolvable h2 mref
  if !t.2 then (t.1, none)
  else
    let h4 := hGje t.1 mref
    (h4, some (((matVals h4 mref).take (n * n)).map (fun row => row.getLastD 0)))


/-- Partial elimination pass: only the rows whose index lies in `S`
have been processed (proof device for the sequential heap loop). -/
def elimRowsOn (m : List (List Nat)) (r c : Nat) (S : List Nat) : List (List Nat) :=
  m.mapIdx (fun i row =>
    if i ∈ S ∧ i ≠ r ∧ row.getD c 0 = 1 then
      List.zipWith Nat.xor row (m.getD r []) else row)

/-- Structural well-formedness of a heap matrix: the matrix cell holds
row references, pairwise distinct, in range, different from the matrix
cell itself, and each pointing at an integer-list cell. -/
structure HeapMatrixWF (h : Heap) (mref : Nat) : Prop where
  mlt : mref < h.length
  isrefs : ∃ rs, h.getD mref (HVal.ints []) = HVal.refs rs
  nodup : (readRefs h mref).Nodup
  rowlt : ∀ q ∈ readRefs h mref, q < h.length
  rowne : ∀ q ∈ readRefs h mref, q ≠ mref
  rowints : ∀ q ∈ readRefs h mref, ∃ xs, h.getD q (HVal.ints []) = HVal.ints xs

/-- Outcome of one round of `LightsOutHandler.handle` for a received
input line: either the success payload is sent and the loop ends, or
the incorrect-solution notice is sent and a new round begins. -/
inductive RoundResult
  | success
  | incorrect
deriving DecidableEq

/-- Parsing of the client's input line (src line 239):
`[1 if c == "#" else 0 for c in user_input]`. -/
def parse_solution (input : List Char) : List Nat :=
  input.map (fun c => if c = '#' then 1 else 0)

/-- The verification branch of `LightsOutHandler.handle` (src lines
239-246): `if len(user_solution) == n * n and check_solution(board[:],
user_solution, n)` — the success payload is sent exactly when the
length test and the verifier both pass, and Python's short-circuiting
`and` evaluates `check_solution` only after the length test succeeds
(the `board[:]` copy is identity in this functional embedding). -/
def handle_round (board : List Nat) (n : Nat) (input : List Char) : RoundResult :=
  let user_solution := parse_solution input
  if user_solution.length == n * n && check_solution board user_solution n then
    RoundResult.success
  else
    RoundResult.incorrect

/-! ### Basic list-access lemmas -/

theorem getD_set_eq (l : List Nat) (p j v d : Nat) :
    (l.set p v).getD j d = if p = j ∧ p < l.length then v else l.getD j d := by
  rw [List.getD_eq_getElem?_getD, List.getD_eq_getElem?_getD, List.getElem?_set]
  by_cases h : p = j
  · subst h
    by_cases hl : p < l.length
    · simp [hl]
    · simp [hl, List.getElem?_eq_none (Nat.le_of_not_lt hl)]
  · simp [h]

theorem getD_replicate (k x j d : Nat) :
    (List.replicate k x).getD j d = if j < k then x else d := by
  rw [List.getD_eq_getElem?_getD, List.getElem?_replicate]
  split <;> rfl

theorem getD_zipWith (f : Nat → Nat → Nat) (a b : List Nat) (j d : Nat)
    (ha : j < a.length) (hb : j < b.length) :
    (List.zipWith f a b).getD j d = f (a.getD j d) (b.getD j d) := by
  rw [List.getD_eq_getElem?_getD, List.getD_eq_getElem?_getD, List.getD_eq_getElem?_getD,
    List.getElem?_zipWith, List.getElem?_eq_getElem ha, List.getElem?_eq_getElem hb]
  rfl

theorem getD_range_map {β : Type} (f : Nat → β) (k i : Nat) (d : β) (hi : i < k) :
    ((List.range k).map f).getD i d = f i := by
  rw [List.getD_eq_getElem?_getD, List.getElem?_map, List.getElem?_range hi]
  rfl

theorem ite_one_zero_eq_one (P : Prop) [Decidable P] :
    (if P then (1 : Nat) else 0) = 1 ↔ P := by
  split <;> simp_all

/-! ### Characterization of the toggle vectors (claims C3, C5) -/

theorem make_vector_length (n i : Nat) : (make_vector n i).length = n * n := by
  unfold make_vector
  split <;> split <;> split <;> split <;> simp

/-- Arithmetic facts about the base-`n` decomposition of a successor. -/
theorem succ_decomp (n j : Nat) (hn : 0 < n) :
    ((j + 1) % n = j % n + 1 ∧ (j + 1) / n = j / n) ∨
      (j % n = n - 1 ∧ (j + 1) % n = 0 ∧ (j + 1) / n = j / n + 1) := by
  have h := Nat.div_add_mod j n
  have hm := Nat.mod_lt j hn
  rcases Nat.lt_or_ge (j % n + 1) n with hlt | hge
  · left
    have := (Nat.div_mod_unique hn (a := j + 1) (c := j % n + 1) (d := j / n)).2
      ⟨by omega, hlt⟩
    exact ⟨this.2, this.1⟩
  · right
    have hmul : n * (j / n + 1) = n * (j / n) + n := Nat.mul_succ n (j / n)
    have := (Nat.div_mod_unique hn (a := j + 1) (c := 0) (d := j / n + 1)).2
      ⟨by omega, hn⟩
    exact ⟨by omega, this.2, this.1⟩

theorem add_n_decomp (n j : Nat) (hn : 0 < n) :
    (j + n) % n = j % n ∧ (j + n) / n = j / n + 1 :=
  ⟨Nat.add_mod_right j n, Nat.add_div_right j hn⟩

theorem div_pos_iff_le (n i : Nat) (hn : 0 < n) : 0 < i / n ↔ n ≤ i := by
  constructor
  · intro h
    by_contra hc
    rw [Nat.div_eq_of_lt (Nat.lt_of_not_le hc)] at h
    exact Nat.lt_irrefl 0 h
  · intro h
    exact Nat.div_pos h hn

theorem div_lt_pred_iff (n i : Nat) (hn : 0 < n) : i / n < n - 1 ↔ i < n * (n - 1) := by
  rw [Nat.div_lt_iff_lt_mul hn, Nat.mul_comm]

set_option maxHeartbeats 2000000 in
/-- The value of bit `j` of the toggle vector of cell `i`, phrased with
the row/column conditions of the specification (`row = i / n`,
`col = i % n`): bit `i` is set, bit `i-1` is set iff `col > 0`, bit
`i+1` iff `col < n-1`, bit `i-n` iff `row > 0`, bit `i+n` iff
`row < n-1`, and every other bit is `0`. -/
theorem make_vector_getD (n i j : Nat) (hi : i < n * n) (hj : j < n * n) :
    (make_vector n i).getD j 0 =
      if j = i ∨ (j + 1 = i ∧ 0 < i % n) ∨ (j = i + 1 ∧ i % n < n - 1) ∨
          (j + n = i ∧ 0 < i / n) ∨ (j = i + n ∧ i / n < n - 1)
        then 1 else 0 := by
  have hn : 0 < n := by
    rcases Nat.eq_zero_or_pos n with h | h
    · subst h; omega
    · exact h
  have hmod : i % n < n := Nat.mod_lt i hn
  have hdm := Nat.div_add_mod i n
  have hdiv1 : 0 < i / n ↔ n ≤ i := div_pos_iff_le n i hn
  have hdiv2 : i / n < n - 1 ↔ i < n * (n - 1) := div_lt_pred_iff n i hn
  have hq : i / n < n := by
    rw [Nat.div_lt_iff_lt_mul hn]; exact lt_of_lt_of_le hi (Nat.le_of_eq (Nat.mul_comm n n))
  have hpred : n * (n - 1) + n = n * n := by
    cases n with
    | zero => omega
    | succ m =>
      simp only [Nat.succ_sub_one]
      ring
  simp only [make_vector]
  split_ifs <;>
    simp only [getD_set_eq, List.length_set, List.length_replicate, getD_replicate] <;>
    split_ifs <;> omega

theorem cvr_getD (n i : Nat) (hi : i < n * n) :
    (create_vector_representations n).getD i [] = make_vector n i := by
  unfold create_vector_representations
  exact getD_range_map (make_vector n) (n * n) i [] hi

/-- The claimed neighbour relation is symmetric in `i` and `j`. -/
theorem neighbor_symm (n i j : Nat) (hn : 1 ≤ n) (hi : i < n * n) (hj : j < n * n) :
    (j = i ∨ (j + 1 = i ∧ 0 < i % n) ∨ (j = i + 1 ∧ i % n < n - 1) ∨
        (j + n = i ∧ 0 < i / n) ∨ (j = i + n ∧ i / n < n - 1)) ↔
      (i = j ∨ (i + 1 = j ∧ 0 < j % n) ∨ (i = j + 1 ∧ j % n < n - 1) ∨
        (i + n = j ∧ 0 < j / n) ∨ (i = j + n ∧ j / n < n - 1)) := by
  have hmi : i % n < n := Nat.mod_lt i hn
  have hmj : j % n < n := Nat.mod_lt j hn
  have hdmi := Nat.div_add_mod i n
  have hdmj := Nat.div_add_mod j n
  have hdi1 : 0 < i / n ↔ n ≤ i := div_pos_iff_le n i hn
  have hdj1 : 0 < j / n ↔ n ≤ j := div_pos_iff_le n j hn
  have hdi2 : i / n < n - 1 ↔ i < n * (n - 1) := div_lt_pred_iff n i hn
  have hdj2 : j / n < n - 1 ↔ j < n * (n - 1) := div_lt_pred_iff n j hn
  have hpred : n * (n - 1) + n = n * n := by
    cases n with
    | zero => simp
    | succ m =>
      simp only [Nat.succ_sub_one]
      ring
  constructor
  · rintro (h | ⟨h, hc⟩ | ⟨h, hc⟩ | ⟨h, hc⟩ | ⟨h, hc⟩)
    · omega
    · subst h
      have hs := succ_decomp n j hn
      have : (j + 1) % n < n := Nat.mod_lt (j + 1) hn
      omega
    · subst h
      have hs := succ_decomp n i hn
      have : (i + 1) % n < n := Nat.mod_lt (i + 1) hn
      omega
    · subst h
      have ha := add_n_decomp n j hn
      omega
    · subst h
      have ha := add_n_decomp n i hn
      omega
  · rintro (h | ⟨h, hc⟩ | ⟨h, hc⟩ | ⟨h, hc⟩ | ⟨h, hc⟩)
    · omega
    · subst h
      have hs := succ_decomp n i hn
      have : (i + 1) % n < n := Nat.mod_lt (i + 1) hn
      omega
    · subst h
      have hs := succ_decomp n j hn
      have : (j + 1) % n < n := Nat.mod_lt (j + 1) hn
      omega
    · subst h
      have ha := add_n_decomp n i hn
      omega
    · subst h
      have ha := add_n_decomp n j hn
      omega

/-- C3: for every `n ≥ 1` and every cell `i` of the `n × n` board, the
`i`-th vector of `create_vector_representations n` has bit `i` set,
bit `i-1` set iff `col > 0`, bit `i+1` set iff `col < n-1`, bit `i-n`
set iff `row > 0`, bit `i+n` set iff `row < n-1`, and every other bit
`0` (`row = i / n`, `col = i % n`). -/
theorem create_vector_representations_characterization (n i : Nat)
    (hn : 1 ≤ n) (hi : i < n * n) :
    ∀ j, j < n * n →
      ((create_vector_representations n).getD i []).getD j 0 =
        if j = i ∨ (j + 1 = i ∧ 0 < i % n) ∨ (j = i + 1 ∧ i % n < n - 1) ∨
            (j + n = i ∧ 0 < i / n) ∨ (j = i + n ∧ i / n < n - 1)
          then 1 else 0 := by
  intro j hj
  rw [cvr_getD n i hi]
  exact make_vector_getD n i j hi hj

/-- C5: the toggle vectors are symmetric — vector `i` has a `1` at
position `j` iff vector `j` has a `1` at position `i`. -/
theorem create_vector_representations_symmetric (n i j : Nat)
    (hn : 1 ≤ n) (hi : i < n * n) (hj : j < n * n) :
    (((create_vector_representations n).getD i []).getD j 0 = 1 ↔
      ((create_vector_representations n).getD j []).getD i 0 = 1) := by
  rw [create_vector_representations_characterization n i hn hi j hj,
    create_vector_representations_characterization n j hn hj i hi,
    ite_one_zero_eq_one, ite_one_zero_eq_one]
  exact neighbor_symm n i j hn hi hj

/-- Witness for the symmetry theorem at a concrete input. -/
theorem create_vector_representations_symmetric_witness :
    (1 ≤ 3 ∧ 1 < 3 * 3 ∧ 5 < 3 * 3) ∧
      ((((create_vector_representations 3).getD 1 []).getD 5 0 = 1 ↔
        ((create_vector_representations 3).getD 5 []).getD 1 0 = 1)) :=
  ⟨⟨by decide, by decide, by decide⟩,
    create_vector_representations_symmetric 3 1 5 (by decide) (by decide) (by decide)⟩

/-- Witness for the characterization theorem at a concrete input. -/
theorem create_vector_representations_characterization_witness :
    (1 ≤ 3 ∧ 4 < 3 * 3) ∧
      ((create_vector_representations 3).getD 4 []).getD 1 0 =
        if (1 = 4 ∨ (1 + 1 = 4 ∧ 0 < 4 % 3) ∨ (1 = 4 + 1 ∧ 4 % 3 < 3 - 1) ∨
            (1 + 3 = 4 ∧ 0 < 4 / 3) ∨ (1 = 4 + 3 ∧ 4 / 3 < 3 - 1))
          then 1 else 0 :=
  ⟨⟨by decide, by decide⟩,
    create_vector_representations_characterization 3 4 (by decide) (by decide) 1 (by decide)⟩

/-! ### The documented worked example (claim C7) -/

/-- C7: for `n = 3`, board `###/#.#/.##` (row-major
`[1,1,1,1,0,1,0,1,1]`) and the solution parsed from the banner's
literal string `..##...#.` (`[0,0,1,1,0,0,0,1,0]`), `check_solution`
returns `true`: applying that solution turns every light off. -/
theorem worked_example_check :
    check_solution [1, 1, 1, 1, 0, 1, 0, 1, 1] [0, 0, 1, 1, 0, 0, 0, 1, 0] 3 = true := by
  decide

/-! ### Mismatched-length input (claim C8) -/

/-- C8: an input line whose parsed bit sequence has length different
from `n²` makes the round fall through to the incorrect-solution path,
for every board — the length test of the short-circuit conjunction on
src line 240 fails, so `check_solution` is never evaluated and the
success payload is never emitted. -/
theorem mismatched_length_incorrect (board : List Nat) (n : Nat) (input : List Char)
    (h : (parse_solution input).length ≠ n * n) :
    handle_round board n input = RoundResult.incorrect := by
  unfold handle_round
  have hfalse : ((parse_solution input).length == n * n) = false := by
    simp only [beq_eq_false_iff_ne, ne_eq]
    exact h
  simp [hfalse]

/-- Witness for the mismatched-length theorem: two characters against
a 1×1 board. -/
theorem mismatched_length_incorrect_witness :
    (parse_solution ['#', '#']).length ≠ 1 * 1 ∧
      handle_round [1] 1 ['#', '#'] = RoundResult.incorrect :=
  ⟨by decide, mismatched_length_incorrect [1] 1 ['#', '#'] (by decide)⟩

/-! ### XOR vector algebra (for claim C2) -/

theorem ext_getD (a b : List Nat) (hl : a.length = b.length)
    (h : ∀ j, j < a.length → a.getD j 0 = b.getD j 0) : a = b := by
  apply List.ext_getElem hl
  intro i h1 h2
  have hg := h i h1
  rwa [List.getD_eq_getElem?_getD, List.getD_eq_getElem?_getD,
    List.getElem?_eq_getElem h1, List.getElem?_eq_getElem h2] at hg

theorem xorVec_length (a b : List Nat) :
    (xorVec a b).length = min a.length b.length :=
  List.length_zipWith Nat.xor a b

theorem xorVec_zero_right (b : List Nat) (k : Nat) (hb : b.length = k) :
    xorVec b (List.replicate k 0) = b := by
  apply ext_getD
  · simp [xorVec_length, hb]
  · intro j hj
    have hj' : j < k := by
      have := hj
      simp only [xorVec_length, List.length_replicate, hb, Nat.min_self] at this
      exact this
    simp only [xorVec]
    rw [getD_zipWith _ _ _ _ _ (by omega) (by rw [List.length_replicate]; exact hj'),
      getD_replicate, if_pos hj']
    exact Nat.xor_zero _

theorem xorVec_zero_left (a : List Nat) (k : Nat) (ha : a.length = k) :
    xorVec (List.replicate k 0) a = a := by
  apply ext_getD
  · simp [xorVec_length, ha]
  · intro j hj
    have hj' : j < k := by
      have := hj
      simp only [xorVec_length, List.length_replicate, ha, Nat.min_self] at this
      exact this
    simp only [xorVec]
    rw [getD_zipWith _ _ _ _ _ (by rw [List.length_replicate]; exact hj') (by omega),
      getD_replicate, if_pos hj']
    exact Nat.zero_xor _

theorem xorVec_assoc (a b c : List Nat) :
    xorVec (xorVec a b) c = xorVec a (xorVec b c) := by
  induction a generalizing b c with
  | nil => simp [xorVec]
  | cons x xs ih =>
    cases b with
    | nil => simp [xorVec]
    | cons y ys =>
      cases c with
      | nil => simp [xorVec]
      | cons z zs =>
        simp only [xorVec, List.zipWith_cons_cons]
        congr 1
        · exact Nat.xor_assoc x y z
        · exact ih ys zs

/-! ### check_solution as the linear toggle operator (claim C2) -/

theorem natXor_zero (a : Nat) : Nat.xor a 0 = a := Nat.xor_zero a

theorem natZero_xor (a : Nat) : Nat.xor 0 a = a := Nat.zero_xor a

theorem getD_xorVec (a b : List Nat) (j : Nat) (ha : j < a.length) (hb : j < b.length) :
    (xorVec a b).getD j 0 = Nat.xor (a.getD j 0) (b.getD j 0) := by
  simp only [xorVec]
  exact getD_zipWith Nat.xor a b j 0 ha hb

theorem flip_eq_xorVec_single (b : List Nat) (p k : Nat) (hb : b.length = k) :
    b.set p (b.getD p 0 ^^^ 1) = xorVec b ((List.replicate k 0).set p 1) := by
  apply ext_getD
  · simp [xorVec_length, hb]
  · intro j hj
    rw [List.length_set] at hj
    have hrhs : (xorVec b ((List.replicate k 0).set p 1)).getD j 0 =
        Nat.xor (b.getD j 0) (((List.replicate k 0).set p 1).getD j 0) :=
      getD_xorVec _ _ j hj (by simp only [List.length_set, List.length_replicate]; omega)
    rw [getD_set_eq, hrhs, getD_set_eq, getD_replicate, List.length_replicate]
    by_cases hp : p = j
    · subst hp
      rw [if_pos ⟨rfl, hj⟩, if_pos ⟨rfl, by omega⟩]
      rfl
    · rw [if_neg (by tauto), if_neg (by tauto), ite_self]
      exact (Nat.xor_zero _).symm

theorem setFlip_xorVec (g : Prop) [Decidable g] (b v : List Nat) (p : Nat)
    (h1 : v.length = b.length) (h2 : g → v.getD p 0 = 0) :
    (if g then (xorVec b v).set p ((xorVec b v).getD p 0 ^^^ 1) else xorVec b v) =
      xorVec b (if g then v.set p 1 else v) := by
  split_ifs with hg
  · have hxl : (xorVec b v).length = v.length := by rw [xorVec_length, h1, Nat.min_self]
    apply ext_getD
    · rw [List.length_set, hxl, xorVec_length, List.length_set, h1, Nat.min_self]
    · intro j hj
      rw [List.length_set, hxl] at hj
      have hjb : j < b.length := by omega
      have hrhs : (xorVec b (v.set p 1)).getD j 0 =
          Nat.xor (b.getD j 0) ((v.set p 1).getD j 0) :=
        getD_xorVec _ _ j hjb (by rw [List.length_set]; omega)
      have hx : (xorVec b v).getD j 0 = Nat.xor (b.getD j 0) (v.getD j 0) :=
        getD_xorVec _ _ j hjb (by omega)
      rw [getD_set_eq, hrhs, getD_set_eq]
      by_cases hp : p = j
      · subst hp
        rw [if_pos ⟨rfl, by omega⟩, if_pos ⟨rfl, by omega⟩]
        have hxp : (xorVec b v).getD p 0 = Nat.xor (b.getD p 0) (v.getD p 0) :=
          getD_xorVec _ _ p hjb (by omega)
        rw [hxp, h2 hg, natXor_zero]
        rfl
      · rw [if_neg (by tauto), if_neg (by tauto), hx]
  · rfl

theorem toggleAt_eq_xorVec (n : Nat) (b : List Nat) (i : Nat)
    (hb : b.length = n * n) (hi : i < n * n) :
    toggleAt n b i = xorVec b (make_vector n i) := by
  have hn : 0 < n := by
    rcases Nat.eq_zero_or_pos n with h | h
    · subst h; omega
    · exact h
  have hA : i % n ≠ 0 → 1 ≤ i := by
    intro h
    by_contra hc
    push_neg at hc
    have h0 : i = 0 := by omega
    subst h0
    exact h (Nat.zero_mod n)
  have hB : i % n ≠ 0 → 2 ≤ n := by
    intro h
    by_contra hc
    push_neg at hc
    have h1 : n = 1 := by omega
    subst h1
    exact h (Nat.mod_one i)
  have hC : i % n ≠ n - 1 → 2 ≤ n := by
    intro h
    by_contra hc
    push_neg at hc
    have h1 : n = 1 := by omega
    subst h1
    exact h (Nat.mod_one i)
  simp only [toggleAt, make_vector]
  rw [flip_eq_xorVec_single b i (n * n) hb]
  rw [setFlip_xorVec _ b _ (i - 1) ?_ ?_]
  rotate_left
  · simp [hb]
  · intro hg
    have hAg := hA hg
    simp only [getD_set_eq, List.length_set, List.length_replicate, getD_replicate]
    split_ifs <;> omega
  rw [setFlip_xorVec _ b _ (i + 1) ?_ ?_]
  rotate_left
  · split_ifs <;> simp [hb]
  · intro hg
    have hCg := hC hg
    split_ifs with hgL <;>
      simp only [getD_set_eq, List.length_set, List.length_replicate, getD_replicate] <;>
      split_ifs <;> omega
  rw [setFlip_xorVec _ b _ (i - n) ?_ ?_]
  rotate_left
  · split_ifs <;> simp [hb]
  · intro hg
    have hBi : i % n ≠ 0 → 2 ≤ n := hB
    split_ifs with hgL hgR hgR <;>
      simp only [getD_set_eq, List.length_set, List.length_replicate, getD_replicate] <;>
      split_ifs <;> (first | rfl | (exfalso; have := hB; have := hC; omega))
  rw [setFlip_xorVec _ b _ (i + n) ?_ ?_]
  · split_ifs <;> simp [hb]
  · intro hg
    split_ifs <;>
      simp only [getD_set_eq, List.length_set, List.length_replicate, getD_replicate] <;>
      split_ifs <;> (first | rfl | (exfalso; have := hB; have := hC; omega))

/-- Every toggle vector has length `n * n`. -/
theorem vec_getD_length (n i : Nat) (hi : i < n * n) :
    ((create_vector_representations n).getD i []).length = n * n := by
  rw [cvr_getD n i hi]
  exact make_vector_length n i

/-- Starting the xor-accumulating fold from `a` equals starting it from
the zero vector and xoring `a` on afterwards. -/
theorem sum_fold_hoist (n : Nat) (solution : List Nat) :
    ∀ (L : List Nat), (∀ i ∈ L, i < n * n) → ∀ (a : List Nat), a.length = n * n →
      L.foldl (fun acc i => if solution.getD i 0 == 1 then
          xorVec acc ((create_vector_representations n).getD i []) else acc) a =
        xorVec a (L.foldl (fun acc i => if solution.getD i 0 == 1 then
          xorVec acc ((create_vector_representations n).getD i []) else acc)
          (List.replicate (n * n) 0)) := by
  intro L
  induction L with
  | nil =>
    intro _ a ha
    exact (xorVec_zero_right a (n * n) ha).symm
  | cons x xs ih =>
    intro hmem a ha
    have hx : x < n * n := hmem x (List.mem_cons_self x xs)
    have hmem' : ∀ i ∈ xs, i < n * n := fun i hi => hmem i (List.mem_cons_of_mem x hi)
    have hvl : ((create_vector_representations n).getD x []).length = n * n :=
      vec_getD_length n x hx
    simp only [List.foldl_cons]
    by_cases hsel : (solution.getD x 0 == 1) = true
    · rw [if_pos hsel, if_pos hsel,
        ih hmem' (xorVec a ((create_vector_representations n).getD x []))
          (by rw [xorVec_length, ha, hvl, Nat.min_self]),
        xorVec_zero_left _ (n * n) hvl, ih hmem' _ hvl, xorVec_assoc]
    · rw [if_neg hsel, if_neg hsel]
      exact ih hmem' a ha

/-- The toggle-replay fold of `check_solution` equals the board xored
with the xor-accumulating fold of the selected toggle vectors. -/
theorem toggle_fold (n : Nat) (solution : List Nat) :
    ∀ (L : List Nat), (∀ i ∈ L, i < n * n) → ∀ (b : List Nat), b.length = n * n →
      L.foldl (fun b i => if solution.getD i 0 == 1 then toggleAt n b i else b) b =
        xorVec b (L.foldl (fun acc i => if solution.getD i 0 == 1 then
          xorVec acc ((create_vector_representations n).getD i []) else acc)
          (List.replicate (n * n) 0)) := by
  intro L
  induction L with
  | nil =>
    intro _ b hbl
    exact (xorVec_zero_right b (n * n) hbl).symm
  | cons x xs ih =>
    intro hmem b hbl
    have hx : x < n * n := hmem x (List.mem_cons_self x xs)
    have hmem' : ∀ i ∈ xs, i < n * n := fun i hi => hmem i (List.mem_cons_of_mem x hi)
    have hvl : ((create_vector_representations n).getD x []).length = n * n :=
      vec_getD_length n x hx
    simp only [List.foldl_cons]
    by_cases hsel : (solution.getD x 0 == 1) = true
    · rw [if_pos hsel, if_pos hsel, toggleAt_eq_xorVec n b x hbl hx, ← cvr_getD n x hx,
        ih hmem' (xorVec b ((create_vector_representations n).getD x []))
          (by rw [xorVec_length, hbl, hvl, Nat.min_self]),
        xorVec_zero_left _ (n * n) hvl,
        sum_fold_hoist n solution xs hmem' _ hvl, xorVec_assoc]
    · rw [if_neg hsel, if_neg hsel]
      exact ih hmem' b hbl

/-- The xor-accumulating fold preserves vector length. -/
theorem sum_fold_length (n : Nat) (solution : List Nat) :
    ∀ (L : List Nat), (∀ i ∈ L, i < n * n) → ∀ (a : List Nat), a.length = n * n →
      (L.foldl (fun acc i => if solution.getD i 0 == 1 then
        xorVec acc ((create_vector_representations n).getD i []) else acc) a).length =
        n * n := by
  intro L
  induction L with
  | nil => intro _ a ha; exact ha
  | cons x xs ih =>
    intro hmem a ha
    have hx : x < n * n := hmem x (List.mem_cons_self x xs)
    have hmem' : ∀ i ∈ xs, i < n * n := fun i hi => hmem i (List.mem_cons_of_mem x hi)
    simp only [List.foldl_cons]
    by_cases hsel : (solution.getD x 0 == 1) = true
    · rw [if_pos hsel]
      exact ih hmem' _ (by rw [xorVec_length, ha, vec_getD_length n x hx, Nat.min_self])
    · rw [if_neg hsel]
      exact ih hmem' a ha

theorem all_zero_iff_eq_replicate (F : List Nat) (k : Nat) (hf : F.length = k) :
    (F.all (fun v => v == 0) = true ↔ F = List.replicate k 0) := by
  constructor
  · intro h
    apply ext_getD
    · simp [hf]
    · intro j hj
      rw [getD_replicate, if_pos (by omega)]
      have hjl : j < F.length := hj
      have hmem : F.getD j 0 ∈ F := by
        rw [List.getD_eq_getElem?_getD, List.getElem?_eq_getElem hjl]
        exact List.getElem_mem hjl
      have hz := List.all_eq_true.mp h _ hmem
      simpa using hz
  · intro h
    subst h
    simp

/-- C2: `check_solution board solution n` returns `true` iff the board
xored with the GF(2) sum of the toggle vectors selected by the
solution bits is the all-zero vector — the verifier agrees with the
linear toggle operator. -/
theorem check_solution_iff_linear (board solution : List Nat) (n : Nat)
    (hn : 1 ≤ n) (hb : board.length = n * n) (hs : solution.length = n * n) :
    (check_solution board solution n = true ↔
      xorVec board (selectedVectorSum solution n) = List.replicate (n * n) 0) := by
  have hrange : ∀ i ∈ List.range (n * n), i < n * n := fun i hi => List.mem_range.mp hi
  have hS : (selectedVectorSum solution n).length = n * n :=
    sum_fold_length n solution (List.range (n * n)) hrange _ (List.length_replicate _ _)
  simp only [check_solution, selectedVectorSum] at *
  rw [toggle_fold n solution (List.range (n * n)) hrange board hb]
  exact all_zero_iff_eq_replicate _ (n * n)
    (by rw [xorVec_length, hb, hS, Nat.min_self])

/-- Witness for C2 at the documented worked example. -/
theorem check_solution_iff_linear_witness :
    (1 ≤ 3 ∧ ([1, 1, 1, 1, 0, 1, 0, 1, 1] : List Nat).length = 3 * 3 ∧
      ([0, 0, 1, 1, 0, 0, 0, 1, 0] : List Nat).length = 3 * 3) ∧
      (check_solution [1, 1, 1, 1, 0, 1, 0, 1, 1] [0, 0, 1, 1, 0, 0, 0, 1, 0] 3 = true ↔
        xorVec [1, 1, 1, 1, 0, 1, 0, 1, 1]
          (selectedVectorSum [0, 0, 1, 1, 0, 0, 0, 1, 0] 3) = List.replicate (3 * 3) 0) :=
  ⟨⟨by decide, by decide, by decide⟩,
    check_solution_iff_linear [1, 1, 1, 1, 0, 1, 0, 1, 1] [0, 0, 1, 1, 0, 0, 0, 1, 0] 3
      (by decide) (by decide) (by decide)⟩

/-! ### Gauss-Jordan elimination: access and shape lemmas -/

theorem getD_set_any {α : Type} (l : List α) (p j : Nat) (v d : α) :
    (l.set p v).getD j d = if p = j ∧ p < l.length then v else l.getD j d := by
  rw [List.getD_eq_getElem?_getD, List.getD_eq_getElem?_getD, List.getElem?_set]
  by_cases h : p = j
  · subst h
    by_cases hl : p < l.length
    · simp [hl]
    · simp [hl, List.getElem?_eq_none (Nat.le_of_not_lt hl)]
  · simp [h]

theorem getD_dropLast_eq (xs : List Nat) (q : Nat) (h : q < xs.length - 1) :
    xs.dropLast.getD q 0 = xs.getD q 0 := by
  rw [List.getD_eq_getElem?_getD, List.getD_eq_getElem?_getD, List.getElem?_dropLast,
    if_pos h]

theorem getLastD_eq_getD (xs : List Nat) :
    xs.getLastD 0 = xs.getD (xs.length - 1) 0 := by
  rw [List.getLastD_eq_getLast?, List.getLast?_eq_getElem?, List.getD_eq_getElem?_getD]

theorem find?_range'_none (f : Nat → Bool) (s k : Nat) :
    ((List.range' s k).find? f = none) ↔ ∀ i, s ≤ i → i < s + k → f i = false := by
  rw [List.find?_eq_none]
  constructor
  · intro h i h1 h2
    have := h i (List.mem_range'_1.mpr ⟨h1, h2⟩)
    simpa using this
  · intro h x hx
    obtain ⟨h1, h2⟩ := List.mem_range'_1.mp hx
    simp [h x h1 h2]

theorem find?_range'_some (f : Nat → Bool) (s k p : Nat)
    (h : (List.range' s k).find? f = some p) :
    s ≤ p ∧ p < s + k ∧ f p = true ∧ ∀ i, s ≤ i → i < p → f i = false := by
  induction k generalizing s with
  | zero => simp [List.range'] at h
  | succ k ih =>
    rw [List.range'_succ] at h
    by_cases hf : f s = true
    · rw [List.find?_cons_of_pos _ hf] at h
      have hsp : s = p := by simpa using h
      subst hsp
      exact ⟨Nat.le_refl _, by omega, hf, fun i h1 h2 => absurd h1 (by omega)⟩
    · rw [List.find?_cons_of_neg _ hf] at h
      obtain ⟨h1, h2, h3, h4⟩ := ih (s + 1) h
      refine ⟨by omega, by omega, h3, ?_⟩
      intro i hi1 hi2
      rcases Nat.eq_or_lt_of_le hi1 with hq | hlt
      · subst hq
        simpa using hf
      · exact h4 i hlt hi2

theorem findPivot_none_entry (m : List (List Nat)) (r c : Nat)
    (h : findPivot m r c = none) :
    ∀ i, r ≤ i → i < m.length → entry m i c ≠ 1 := by
  intro i h1 h2
  have := (find?_range'_none _ r (m.length - r)).mp h i h1 (by omega)
  simpa using this

theorem findPivot_some_entry (m : List (List Nat)) (r c p : Nat)
    (h : findPivot m r c = some p) :
    r ≤ p ∧ p < m.length ∧ entry m p c = 1 ∧ ∀ i, r ≤ i → i < p → entry m i c ≠ 1 := by
  obtain ⟨h1, h2, h3, h4⟩ := find?_range'_some _ r (m.length - r) p h
  refine ⟨h1, by omega, by simpa using h3, fun i hi1 hi2 => by simpa using h4 i hi1 hi2⟩

theorem length_swapRows (m : List (List Nat)) (r p : Nat) :
    (swapRows m r p).length = m.length := by
  simp [swapRows]

theorem length_elimStep (m : List (List Nat)) (r c : Nat) :
    (elimStep m r c).length = m.length := by
  simp [elimStep]

theorem length_gjeStep (m : List (List Nat)) (r c : Nat) :
    (gjeStep m r c).1.length = m.length := by
  unfold gjeStep
  cases h : findPivot m r c with
  | none => rfl
  | some p =>
    simp only [length_elimStep]
    split_ifs <;> simp [length_swapRows]

theorem getD_swapRows (m : List (List Nat)) (r p i : Nat)
    (hr : r < m.length) (hp : p < m.length) :
    (swapRows m r p).getD i [] =
      m.getD (if i = p then r else if i = r then p else i) [] := by
  simp only [swapRows]
  rw [getD_set_any, getD_set_any]
  simp only [List.length_set]
  by_cases hip : i = p
  · rw [if_pos ⟨hip.symm, hp⟩, if_pos hip]
  · rw [if_neg (fun hc => hip hc.1.symm), if_neg hip]
    by_cases hir : i = r
    · rw [if_pos ⟨hir.symm, hr⟩, if_pos hir]
    · rw [if_neg (fun hc => hir hc.1.symm), if_neg hir]

theorem entry_swapRows (m : List (List Nat)) (r p i q : Nat)
    (hr : r < m.length) (hp : p < m.length) :
    entry (swapRows m r p) i q =
      entry m (if i = p then r else if i = r then p else i) q := by
  unfold entry
  rw [getD_swapRows m r p i hr hp]

theorem getD_elimStep (m : List (List Nat)) (r c i : Nat) (hi : i < m.length) :
    (elimStep m r c).getD i [] =
      if i ≠ r ∧ (m.getD i []).getD c 0 = 1 then
        List.zipWith Nat.xor (m.getD i []) (m.getD r []) else m.getD i [] := by
  simp only [elimStep]
  rw [List.getD_eq_getElem?_getD, List.getElem?_mapIdx, List.getElem?_eq_getElem hi]
  simp only [Option.map_some', Option.getD_some]
  have hgd : m.getD i [] = m[i] := by
    rw [List.getD_eq_getElem?_getD, List.getElem?_eq_getElem hi]
    rfl
  rw [← hgd]
  by_cases h1 : i = r
  · rw [if_neg (by rw [Bool.and_eq_true, decide_eq_true_eq, beq_iff_eq]; tauto),
      if_neg (by tauto)]
  · by_cases h2 : (m.getD i []).getD c 0 = 1
    · rw [if_pos (by rw [Bool.and_eq_true, decide_eq_true_eq, beq_iff_eq]; exact ⟨h1, h2⟩),
        if_pos ⟨h1, h2⟩]
    · rw [if_neg (by rw [Bool.and_eq_true, decide_eq_true_eq, beq_iff_eq]; tauto),
        if_neg (by tauto)]
theorem getD_zipWith_xor_eqlen (u v : List Nat) (q : Nat) (h : u.length = v.length) :
    (List.zipWith Nat.xor u v).getD q 0 = Nat.xor (u.getD q 0) (v.getD q 0) := by
  rcases Nat.lt_or_ge q u.length with hq | hq
  · exact getD_zipWith _ _ _ _ _ hq (by omega)
  · rw [List.getD_eq_getElem?_getD,
      List.getElem?_eq_none (by rw [List.length_zipWith]; omega),
      List.getD_eq_getElem?_getD, List.getElem?_eq_none hq,
      List.getD_eq_getElem?_getD, List.getElem?_eq_none (by omega)]
    rfl

theorem getD_mem_of_lt {α : Type} (l : List α) (i : Nat) (d : α) (h : i < l.length) :
    l.getD i d ∈ l := by
  rw [List.getD_eq_getElem?_getD, List.getElem?_eq_getElem h]
  exact List.getElem_mem h

theorem rect_row (m : List (List Nat)) (w i : Nat) (hrect : Rect m w)
    (hi : i < m.length) : (m.getD i []).length = w :=
  hrect _ (getD_mem_of_lt m i [] hi)

theorem bitsM_entry (m : List (List Nat)) (i q : Nat) (hbits : BitsM m)
    (hi : i < m.length) (hq : q < (m.getD i []).length) : entry m i q < 2 := by
  exact hbits _ (getD_mem_of_lt m i [] hi) _ (getD_mem_of_lt _ q 0 hq)

theorem xor_bit (a b : Nat) (ha : a < 2) (hb : b < 2) : Nat.xor a b < 2 := by
  interval_cases a <;> interval_cases b <;> decide

theorem getD_eq_getElem_of_lt {α : Type} (l : List α) (i : Nat) (d : α)
    (h : i < l.length) : l.getD i d = l[i] := by
  rw [List.getD_eq_getElem?_getD, List.getElem?_eq_getElem h]
  rfl

theorem rect_iff_idx (m : List (List Nat)) (w : Nat) :
    Rect m w ↔ ∀ i, i < m.length → (m.getD i []).length = w := by
  constructor
  · intro h i hi
    exact rect_row m w i h hi
  · intro h row hrow
    obtain ⟨i, hi, hrw⟩ := List.mem_iff_getElem.mp hrow
    rw [← hrw, ← getD_eq_getElem_of_lt m i [] hi]
    exact h i hi

theorem bits_iff_idx (xs : List Nat) :
    Bits xs ↔ ∀ q, q < xs.length → xs.getD q 0 < 2 := by
  constructor
  · intro h q hq
    exact h _ (getD_mem_of_lt xs q 0 hq)
  · intro h x hx
    obtain ⟨q, hq, hxq⟩ := List.mem_iff_getElem.mp hx
    rw [← hxq, ← getD_eq_getElem_of_lt xs q 0 hq]
    exact h q hq

theorem bitsM_iff_idx (m : List (List Nat)) :
    BitsM m ↔ ∀ i, i < m.length → Bits (m.getD i []) := by
  constructor
  · intro h i hi
    exact h _ (getD_mem_of_lt m i [] hi)
  · intro h row hrow
    obtain ⟨i, hi, hrw⟩ := List.mem_iff_getElem.mp hrow
    rw [← hrw, ← getD_eq_getElem_of_lt m i [] hi]
    exact h i hi

theorem swap_idx_lt (r p i len : Nat) (hr : r < len) (hp : p < len) (hi : i < len) :
    (if i = p then r else if i = r then p else i) < len := by
  split_ifs <;> omega

theorem rect_swapRows (m : List (List Nat)) (w r p : Nat) (hrect : Rect m w)
    (hr : r < m.length) (hp : p < m.length) : Rect (swapRows m r p) w := by
  rw [rect_iff_idx]
  intro i hi
  rw [length_swapRows] at hi
  rw [getD_swapRows m r p i hr hp]
  exact rect_row m w _ hrect (swap_idx_lt r p i m.length hr hp hi)

theorem bitsM_swapRows (m : List (List Nat)) (r p : Nat) (hbits : BitsM m)
    (hr : r < m.length) (hp : p < m.length) : BitsM (swapRows m r p) := by
  rw [bitsM_iff_idx]
  intro i hi
  rw [length_swapRows] at hi
  rw [getD_swapRows m r p i hr hp]
  exact (bitsM_iff_idx m).mp hbits _ (swap_idx_lt r p i m.length hr hp hi)

theorem bits_zipWith_xor (u v : List Nat) (hu : Bits u) (hv : Bits v) :
    Bits (List.zipWith Nat.xor u v) := by
  rw [bits_iff_idx]
  intro q hq
  rw [List.length_zipWith] at hq
  rw [getD_zipWith _ _ _ _ _ (by omega) (by omega)]
  exact xor_bit _ _ ((bits_iff_idx u).mp hu q (by omega)) ((bits_iff_idx v).mp hv q (by omega))

theorem rect_elimStep (m : List (List Nat)) (w r c : Nat) (hrect : Rect m w)
    (hr : r < m.length) : Rect (elimStep m r c) w := by
  rw [rect_iff_idx]
  intro i hi
  rw [length_elimStep] at hi
  rw [getD_elimStep m r c i hi]
  split_ifs
  · rw [List.length_zipWith, rect_row m w i hrect hi, rect_row m w r hrect hr,
      Nat.min_self]
  · exact rect_row m w i hrect hi

theorem bitsM_elimStep (m : List (List Nat)) (r c : Nat) (hbits : BitsM m)
    (hr : r < m.length) : BitsM (elimStep m r c) := by
  rw [bitsM_iff_idx]
  intro i hi
  rw [length_elimStep] at hi
  rw [getD_elimStep m r c i hi]
  split_ifs
  · exact bits_zipWith_xor _ _ ((bitsM_iff_idx m).mp hbits i hi)
      ((bitsM_iff_idx m).mp hbits r hr)
  · exact (bitsM_iff_idx m).mp hbits i hi

theorem rect_gjeStep (m : List (List Nat)) (w r c : Nat) (hrect : Rect m w)
    (hr : r < m.length) : Rect (gjeStep m r c).1 w := by
  unfold gjeStep
  cases h : findPivot m r c with
  | none => exact hrect
  | some p =>
    obtain ⟨h1, h2, h3, h4⟩ := findPivot_some_entry m r c p h
    simp only
    split_ifs with hrp
    · exact rect_elimStep _ w r c (rect_swapRows m w r p hrect hr h2)
        (by rw [length_swapRows]; omega)
    · exact rect_elimStep _ w r c hrect hr

theorem bitsM_gjeStep (m : List (List Nat)) (r c : Nat) (hbits : BitsM m)
    (hr : r < m.length) : BitsM (gjeStep m r c).1 := by
  unfold gjeStep
  cases h : findPivot m r c with
  | none => exact hbits
  | some p =>
    obtain ⟨h1, h2, h3, h4⟩ := findPivot_some_entry m r c p h
    simp only
    split_ifs with hrp
    · exact bitsM_elimStep _ r c (bitsM_swapRows m r p hbits hr h2)
        (by rw [length_swapRows]; omega)
    · exact bitsM_elimStep _ r c hbits hr


/-! ### Row operations preserve the GF(2) solution set -/

theorem dot2_xor : ∀ (u v x : List Nat), Bits u → Bits v → u.length = v.length →
    dot2 (List.zipWith Nat.xor u v) x = (dot2 u x + dot2 v x) % 2 := by
  intro u
  induction u with
  | nil =>
    intro v x _ _ hl
    have hv0 : v = [] := List.eq_nil_of_length_eq_zero (by simpa using hl.symm)
    subst hv0
    simp [dot2]
  | cons a u ih =>
    intro v x hu hv hl
    cases v with
    | nil => simp at hl
    | cons b v =>
      cases x with
      | nil => simp [dot2]
      | cons y x =>
        have ha : a < 2 := hu a (by simp)
        have hb : b < 2 := hv b (by simp)
        have hu' : Bits u := fun z hz => hu z (by simp [hz])
        have hv' : Bits v := fun z hz => hv z (by simp [hz])
        have ihs := ih v x hu' hv' (by simpa using hl)
        simp only [List.zipWith_cons_cons, dot2, List.sum_cons] at ihs ⊢
        have hhead : (Nat.xor a b * y) % 2 = (a * y + b * y) % 2 := by
          interval_cases a <;> interval_cases b <;>
            simp only [show Nat.xor 0 0 = 0 from rfl, show Nat.xor 0 1 = 1 from rfl,
              show Nat.xor 1 0 = 1 from rfl, show Nat.xor 1 1 = 0 from rfl] <;>
            omega
        omega

theorem zipWith_xor_cancel : ∀ (u v : List Nat), u.length = v.length →
    List.zipWith Nat.xor (List.zipWith Nat.xor u v) v = u := by
  intro u
  induction u with
  | nil => intro v _; simp
  | cons a u ih =>
    intro v hl
    cases v with
    | nil => simp at hl
    | cons b v =>
      simp only [List.zipWith_cons_cons, List.cons.injEq]
      constructor
      · exact (by rw [Nat.xor_assoc, Nat.xor_self, Nat.xor_zero] : a ^^^ b ^^^ b = a)
      · exact ih v (by simpa using hl)

theorem dropLast_zipWith_xor (u v : List Nat) (h : u.length = v.length) :
    (List.zipWith Nat.xor u v).dropLast =
      List.zipWith Nat.xor u.dropLast v.dropLast := by
  apply List.ext_getElem?
  intro q
  rw [List.getElem?_dropLast, List.length_zipWith]
  by_cases hq : q < min u.length v.length - 1
  · rw [if_pos hq]
    have hqu : q < u.length := by omega
    have hqv : q < v.length := by omega
    have hzq : q < (List.zipWith Nat.xor u v).length := by
      rw [List.length_zipWith]; omega
    have hdu : q < u.dropLast.length := by rw [List.length_dropLast]; omega
    have hdv : q < v.dropLast.length := by rw [List.length_dropLast]; omega
    rw [List.getElem?_eq_getElem hzq,
      List.getElem?_eq_getElem (by rw [List.length_zipWith]; omega)]
    have e1 : (List.zipWith Nat.xor u v)[q] = Nat.xor u[q] v[q] :=
      List.getElem_zipWith
    have hz2 : q < (List.zipWith Nat.xor u.dropLast v.dropLast).length := by
      rw [List.length_zipWith]; omega
    have e2 : (List.zipWith Nat.xor u.dropLast v.dropLast)[q] =
        Nat.xor (u.dropLast[q]) (v.dropLast[q]) :=
      List.getElem_zipWith
    rw [e1, e2]
    have e3 : u.dropLast[q] = u[q] := List.getElem_dropLast u q hdu
    have e4 : v.dropLast[q] = v[q] := List.getElem_dropLast v q hdv
    rw [e3, e4]
  · rw [if_neg hq]
    symm
    apply List.getElem?_eq_none
    rw [List.length_zipWith, List.length_dropLast, List.length_dropLast]
    omega

theorem getLastD_zipWith_xor (u v : List Nat) (h : u.length = v.length)
    (hpos : 0 < u.length) :
    (List.zipWith Nat.xor u v).getLastD 0 = Nat.xor (u.getLastD 0) (v.getLastD 0) := by
  rw [getLastD_eq_getD, getLastD_eq_getD, getLastD_eq_getD, List.length_zipWith]
  have hmin : min u.length v.length = u.length := by omega
  rw [hmin, ← h]
  rw [getD_zipWith_xor_eqlen u v (u.length - 1) h]

theorem getLastD_lt_two (u : List Nat) (hu : Bits u) (hpos : 0 < u.length) :
    u.getLastD 0 < 2 := by
  rw [getLastD_eq_getD]
  exact (bits_iff_idx u).mp hu _ (by omega)

theorem bits_dropLast (u : List Nat) (hu : Bits u) : Bits u.dropLast :=
  fun x hx => hu x (List.dropLast_subset u hx)

theorem satRow_xor_of (x u v : List Nat) (hu : Bits u) (hv : Bits v)
    (hl : u.length = v.length) (hpos : 0 < u.length)
    (h1 : SatRow x u) (h2 : SatRow x v) : SatRow x (List.zipWith Nat.xor u v) := by
  unfold SatRow at *
  rw [dropLast_zipWith_xor u v hl,
    dot2_xor u.dropLast v.dropLast x (bits_dropLast u hu) (bits_dropLast v hv)
      (by rw [List.length_dropLast, List.length_dropLast, hl]),
    h1, h2, getLastD_zipWith_xor u v hl hpos]
  have hlu := getLastD_lt_two u hu hpos
  have hlv := getLastD_lt_two v hv (by omega)
  interval_cases hval1 : u.getLastD 0 <;> interval_cases hval2 : v.getLastD 0 <;> decide

theorem satRow_xor_inv (x u v : List Nat) (hu : Bits u) (hv : Bits v)
    (hl : u.length = v.length) (hpos : 0 < u.length)
    (h1 : SatRow x (List.zipWith Nat.xor u v)) (h2 : SatRow x v) : SatRow x u := by
  have hcancel := zipWith_xor_cancel u v hl
  rw [← hcancel]
  exact satRow_xor_of x _ v (bits_zipWith_xor u v hu hv) hv
    (by rw [List.length_zipWith]; omega) (by rw [List.length_zipWith]; omega) h1 h2

theorem swapRows_getD_inv (m : List (List Nat)) (r p i : Nat)
    (hr : r < m.length) (hp : p < m.length) :
    (swapRows m r p).getD (if i = p then r else if i = r then p else i) [] =
      m.getD i [] := by
  rw [getD_swapRows m r p _ hr hp]
  have he : (if (if i = p then r else if i = r then p else i) = p then r
      else if (if i = p then r else if i = r then p else i) = r then p
      else (if i = p then r else if i = r then p else i)) = i := by
    split_ifs <;> omega
  rw [he]

theorem satSys_swapRows (m : List (List Nat)) (r p : Nat) (x : List Nat)
    (hr : r < m.length) (hp : p < m.length) :
    SatSys (swapRows m r p) x ↔ SatSys m x := by
  constructor
  · intro h i hi
    have hσlt := swap_idx_lt r p i m.length hr hp hi
    have hs := h _ (by rw [length_swapRows]; exact hσlt)
    rwa [swapRows_getD_inv m r p i hr hp] at hs
  · intro h i hi
    rw [length_swapRows] at hi
    rw [getD_swapRows m r p i hr hp]
    exact h _ (swap_idx_lt r p i m.length hr hp hi)

theorem satSys_elimStep (m : List (List Nat)) (w r c : Nat) (x : List Nat)
    (hrect : Rect m (w + 1)) (hbits : BitsM m) (hr : r < m.length) :
    SatSys (elimStep m r c) x ↔ SatSys m x := by
  have hlr : (m.getD r []).length = w + 1 := rect_row _ _ _ hrect hr
  constructor
  · intro h i hi
    have hs := h i (by rw [length_elimStep]; exact hi)
    rw [getD_elimStep m r c i hi] at hs
    split_ifs at hs with hcond
    · have hpr : SatRow x (m.getD r []) := by
        have hsr := h r (by rw [length_elimStep]; exact hr)
        rw [getD_elimStep m r c r hr, if_neg (by tauto)] at hsr
        exact hsr
      exact satRow_xor_inv x _ _ ((bitsM_iff_idx m).mp hbits i hi)
        ((bitsM_iff_idx m).mp hbits r hr)
        (by rw [rect_row m _ i hrect hi, hlr])
        (by rw [rect_row m _ i hrect hi]; omega) hs hpr
    · exact hs
  · intro h i hi
    rw [length_elimStep] at hi
    rw [getD_elimStep m r c i hi]
    split_ifs with hcond
    · exact satRow_xor_of x _ _ ((bitsM_iff_idx m).mp hbits i hi)
        ((bitsM_iff_idx m).mp hbits r hr)
        (by rw [rect_row m _ i hrect hi, hlr])
        (by rw [rect_row m _ i hrect hi]; omega) (h i hi) (h r hr)
    · exact h i hi

theorem satSys_gjeStep (m : List (List Nat)) (w r c : Nat) (x : List Nat)
    (hrect : Rect m (w + 1)) (hbits : BitsM m) (hr : r < m.length) :
    SatSys (gjeStep m r c).1 x ↔ SatSys m x := by
  unfold gjeStep
  cases h : findPivot m r c with
  | none => exact Iff.rfl
  | some p =>
    obtain ⟨h1, h2, h3, h4⟩ := findPivot_some_entry m r c p h
    simp only
    split_ifs with hrp
    · rw [satSys_elimStep _ w r c x (rect_swapRows m _ r p hrect hr h2)
        (bitsM_swapRows m r p hbits hr h2) (by rw [length_swapRows]; exact hr)]
      exact satSys_swapRows m r p x hr h2
    · exact satSys_elimStep m w r c x hrect hbits hr

theorem satSys_gjeGo (w : Nat) (x : List Nat) :
    ∀ (cs : List Nat) (m : List (List Nat)) (r : Nat), Rect m (w + 1) → BitsM m →
      (SatSys (gjeGo m r cs) x ↔ SatSys m x) := by
  intro cs
  induction cs with
  | nil => intro m r _ _; exact Iff.rfl
  | cons c cs ih =>
    intro m r hrect hbits
    simp only [gjeGo]
    split_ifs with hlen
    · exact Iff.rfl
    · push_neg at hlen
      rw [ih _ _ (rect_gjeStep m (w + 1) r c hrect hlen) (bitsM_gjeStep m r c hbits hlen)]
      exact satSys_gjeStep m w r c x hrect hbits hlen

/-- Row reduction preserves the GF(2) solution set of the augmented
system, in both directions. -/
theorem satSys_gje (m : List (List Nat)) (w : Nat) (x : List Nat)
    (hrect : Rect m (w + 1)) (hbits : BitsM m) :
    SatSys (gauss_jordan_elimination m) x ↔ SatSys m x := by
  unfold gauss_jordan_elimination
  exact satSys_gjeGo w x _ m 0 hrect hbits

/-! ### The RREF loop invariant -/

theorem getD_zero_of_le (l : List Nat) (q : Nat) (h : l.length ≤ q) : l.getD q 0 = 0 := by
  rw [List.getD_eq_getElem?_getD, List.getElem?_eq_none h]
  rfl

theorem entry_bits_ne_one (m : List (List Nat)) (i q : Nat) (hbits : BitsM m)
    (hi : i < m.length) (hne : entry m i q ≠ 1) : entry m i q = 0 := by
  rcases Nat.lt_or_ge q (m.getD i []).length with h | h
  · have := bitsM_entry m i q hbits hi h
    omega
  · exact getD_zero_of_le _ q h

theorem getD_append_sing_lt {α : Type} (xs : List α) (y : α) (j : Nat) (d : α)
    (h : j < xs.length) : (xs ++ [y]).getD j d = xs.getD j d := by
  rw [List.getD_eq_getElem?_getD, List.getD_eq_getElem?_getD, List.getElem?_append,
    if_pos h]

theorem getD_append_sing_eq {α : Type} (xs : List α) (y : α) (d : α) :
    (xs ++ [y]).getD xs.length d = y := by
  rw [List.getD_eq_getElem?_getD, List.getElem?_append, if_neg (by omega)]
  simp

theorem set_getD_self {α : Type} (l : List α) (i : Nat) (d : α) :
    l.set i (l.getD i d) = l := by
  apply List.ext_getElem?
  intro j
  rw [List.getElem?_set]
  by_cases h : i = j
  · subst h
    by_cases hl : i < l.length
    · rw [if_pos rfl, if_pos hl, getD_eq_getElem_of_lt l i d hl,
        List.getElem?_eq_getElem hl]
    · rw [if_pos rfl, if_neg hl, List.getElem?_eq_none (by omega)]
  · rw [if_neg h]

theorem swapRows_self (m : List (List Nat)) (r : Nat) : swapRows m r r = m := by
  unfold swapRows
  rw [set_getD_self m r [], set_getD_self m r []]

theorem entry_elimStep (m : List (List Nat)) (w r c i q : Nat)
    (hrect : Rect m (w + 1)) (hr : r < m.length) (hi : i < m.length) :
    entry (elimStep m r c) i q =
      if i ≠ r ∧ entry m i c = 1 then Nat.xor (entry m i q) (entry m r q)
      else entry m i q := by
  unfold entry
  rw [getD_elimStep m r c i hi]
  split_ifs with h
  · exact getD_zipWith_xor_eqlen _ _ q
      (by rw [rect_row m _ i hrect hi, rect_row m _ r hrect hr])
  · rfl

theorem rref_init (m : List (List Nat)) (w : Nat) : RREFState m w 0 0 [] := by
  refine ⟨rfl, Nat.zero_le _, ?_, ?_, ?_, ?_, ?_, ?_⟩
  · intro p hp
    simp at hp
  · intro a b _ hb
    simp at hb
  · intro j hj
    simp at hj
  · intro j hj
    simp at hj
  · intro i _ _ q hq
    omega
  · intro j hj
    simp at hj

theorem rref_step_none (m : List (List Nat)) (w c r : Nat) (pv : List Nat)
    (hbits : BitsM m) (hs : RREFState m w c r pv)
    (hfp : findPivot m r c = none) : RREFState m w (c + 1) r pv := by
  obtain ⟨plen, rle, pub, pmono, pone, pzero, below, lead⟩ := hs
  refine ⟨plen, rle, ?_, pmono, pone, pzero, ?_, lead⟩
  · intro p hp
    exact Nat.lt_succ_of_lt (pub p hp)
  · intro i hri hi q hq
    rcases Nat.lt_or_ge q c with h | h
    · exact below i hri hi q h
    · have hqc : q = c := by omega
      rw [hqc]
      exact entry_bits_ne_one m i c hbits hi (findPivot_none_entry m r c hfp i hri hi)

set_option maxHeartbeats 1000000 in
theorem rref_step_some (m : List (List Nat)) (w c r p : Nat) (pv : List Nat)
    (hrect : Rect m (w + 1)) (hbits : BitsM m)
    (hs : RREFState m w c r pv) (hr : r < m.length)
    (hfp : findPivot m r c = some p) :
    RREFState (elimStep (swapRows m r p) r c) w (c + 1) (r + 1) (pv ++ [c]) := by
  obtain ⟨hp1, hp2, hp3, hp4⟩ := findPivot_some_entry m r c p hfp
  obtain ⟨plen, rle, pub, pmono, pone, pzero, below, lead⟩ := hs
  have hM1len : (swapRows m r p).length = m.length := length_swapRows m r p
  have hM1rect : Rect (swapRows m r p) (w + 1) := rect_swapRows m (w + 1) r p hrect hr hp2
  have hM1bits : BitsM (swapRows m r p) := bitsM_swapRows m r p hbits hr hp2
  have hE : ∀ i q, entry (swapRows m r p) i q =
      entry m (if i = p then r else if i = r then p else i) q :=
    fun i q => entry_swapRows m r p i q hr hp2
  have hupper : ∀ j, j < r → ∀ q, entry (swapRows m r p) j q = entry m j q := by
    intro j hj q
    rw [hE]
    have he : (if j = p then r else if j = r then p else j) = j := by split_ifs <;> omega
    rw [he]
  have hM1rc : entry (swapRows m r p) r c = 1 := by
    rw [hE]
    by_cases hrp : r = p
    · rw [if_pos hrp, hrp]
      exact hp3
    · rw [if_neg hrp, if_pos rfl]
      exact hp3
  have hbelowM1 : ∀ i, r ≤ i → i < m.length → ∀ q, q < c →
      entry (swapRows m r p) i q = 0 := by
    intro i hri hi q hq
    rw [hE]
    split_ifs with h1 h2
    · exact below r (Nat.le_refl r) hr q hq
    · exact below p hp1 hp2 q hq
    · exact below i hri hi q hq
  have honeM1 : ∀ j, j < pv.length → entry (swapRows m r p) j (pv.getD j 0) = 1 := by
    intro j hj
    rw [hupper j (by omega) _]
    exact pone j hj
  have hzeroM1 : ∀ j, j < pv.length → ∀ i, i < m.length → i ≠ j →
      entry (swapRows m r p) i (pv.getD j 0) = 0 := by
    intro j hj i hi hij
    rw [hE]
    split_ifs with h1 h2
    · exact pzero j hj r hr (by omega)
    · exact pzero j hj p hp2 (by omega)
    · exact pzero j hj i hi hij
  have hleadM1 : ∀ j, j < pv.length → ∀ q, q < pv.getD j 0 →
      entry (swapRows m r p) j q = 0 := by
    intro j hj q hq
    rw [hupper j (by omega)]
    exact lead j hj q hq
  have hE2 : ∀ i q, i < m.length → entry (elimStep (swapRows m r p) r c) i q =
      if i ≠ r ∧ entry (swapRows m r p) i c = 1 then
        Nat.xor (entry (swapRows m r p) i q) (entry (swapRows m r p) r q)
      else entry (swapRows m r p) i q := by
    intro i q hi
    exact entry_elimStep (swapRows m r p) w r c i q hM1rect (by omega) (by omega)
  have hlen2 : (elimStep (swapRows m r p) r c).length = m.length := by
    rw [length_elimStep, hM1len]
  refine ⟨?_, ?_, ?_, ?_, ?_, ?_, ?_, ?_⟩
  · rw [List.length_append, plen]
    rfl
  · omega
  · intro q hq
    rcases List.mem_append.mp hq with h | h
    · exact Nat.lt_succ_of_lt (pub q h)
    · have : q = c := by simpa using h
      omega
  · intro a b hab hb
    rw [List.length_append, List.length_singleton] at hb
    rcases Nat.lt_or_ge b pv.length with hbl | hbl
    · rw [getD_append_sing_lt pv c a 0 (by omega), getD_append_sing_lt pv c b 0 hbl]
      exact pmono a b hab hbl
    · have hbe : b = pv.length := by omega
      subst hbe
      rw [getD_append_sing_lt pv c a 0 (by omega), getD_append_sing_eq pv c 0]
      exact pub _ (getD_mem_of_lt pv a 0 (by omega))
  · intro j hj
    rw [List.length_append, List.length_singleton] at hj
    rcases Nat.lt_or_ge j pv.length with hjl | hjl
    · rw [getD_append_sing_lt pv c j 0 hjl]
      rw [hE2 j _ (by omega)]
      by_cases hc1 : entry (swapRows m r p) j c = 1
      · rw [if_pos ⟨by omega, hc1⟩, honeM1 j hjl]
        have hz : entry (swapRows m r p) r (pv.getD j 0) = 0 :=
          hzeroM1 j hjl r hr (by omega)
        rw [hz]
        rfl
      · rw [if_neg (by tauto)]
        exact honeM1 j hjl
    · have hje : j = pv.length := by omega
      subst hje
      rw [getD_append_sing_eq pv c 0]
      have hjr : pv.length = r := plen
      rw [hjr]
      rw [hE2 r c (by omega)]
      rw [if_neg (by tauto)]
      exact hM1rc
  · intro j hj i hi hij
    rw [List.length_append, List.length_singleton] at hj
    rw [hlen2] at hi
    rcases Nat.lt_or_ge j pv.length with hjl | hjl
    · rw [getD_append_sing_lt pv c j 0 hjl]
      rw [hE2 i _ hi]
      split_ifs with hcond
      · rw [hzeroM1 j hjl i hi hij, hzeroM1 j hjl r hr (by omega)]
        rfl
      · exact hzeroM1 j hjl i hi hij
    · have hje : j = pv.length := by omega
      subst hje
      rw [getD_append_sing_eq pv c 0]
      have hir : i ≠ r := by omega
      rw [hE2 i c hi]
      by_cases hc1 : entry (swapRows m r p) i c = 1
      · rw [if_pos ⟨hir, hc1⟩, hc1, hM1rc]
        rfl
      · rw [if_neg (by tauto)]
        exact entry_bits_ne_one _ i c hM1bits (by omega) hc1
  · intro i hri hi q hq
    rw [hlen2] at hi
    rw [hE2 i q hi]
    rcases Nat.lt_or_ge q c with hqc | hqc
    · split_ifs with hcond
      · rw [hbelowM1 i (by omega) hi q hqc, hbelowM1 r (Nat.le_refl r) (by omega) q hqc]
        rfl
      · exact hbelowM1 i (by omega) hi q hqc
    · have hqe : q = c := by omega
      subst hqe
      split_ifs with hcond
      · rw [hcond.2, hM1rc]
        rfl
      · have hir : i ≠ r := by omega
        have hc1 : entry (swapRows m r p) i q ≠ 1 := by tauto
        exact entry_bits_ne_one _ i q hM1bits (by omega) hc1
  · intro j hj q hq
    rw [List.length_append, List.length_singleton] at hj
    rcases Nat.lt_or_ge j pv.length with hjl | hjl
    · rw [getD_append_sing_lt pv c j 0 hjl] at hq
      rw [hE2 j q (by omega)]
      have hqc : q < c := Nat.lt_trans hq (pub _ (getD_mem_of_lt pv j 0 hjl))
      split_ifs with hcond
      · rw [hleadM1 j hjl q hq, hbelowM1 r (Nat.le_refl r) (by omega) q hqc]
        rfl
      · exact hleadM1 j hjl q hq
    · have hje : j = pv.length := by omega
      subst hje
      rw [getD_append_sing_eq pv c 0] at hq
      have hjr : pv.length = r := plen
      rw [hjr]
      rw [hE2 r q (by omega)]
      rw [if_neg (by tauto)]
      exact hbelowM1 r (Nat.le_refl r) (by omega) q hq

theorem rref_break (m : List (List Nat)) (w c c2 r : Nat) (pv : List Nat)
    (hs : RREFState m w c r pv) (hc : c ≤ c2) (hlen : m.length ≤ r) :
    RREFState m w c2 r pv := by
  obtain ⟨plen, rle, pub, pmono, pone, pzero, below, lead⟩ := hs
  refine ⟨plen, rle, ?_, pmono, pone, pzero, ?_, lead⟩
  · intro q hq
    exact Nat.lt_of_lt_of_le (pub q hq) hc
  · intro i hri hi q hq
    omega

theorem length_gjeGo : ∀ (cs : List Nat) (m : List (List Nat)) (r : Nat),
    (gjeGo m r cs).length = m.length := by
  intro cs
  induction cs with
  | nil => intro m r; rfl
  | cons c cs ih =>
    intro m r
    simp only [gjeGo]
    split_ifs with hlen
    · rfl
    · rw [ih, length_gjeStep]

theorem rect_gjeGo (w : Nat) : ∀ (cs : List Nat) (m : List (List Nat)) (r : Nat),
    Rect m w → Rect (gjeGo m r cs) w := by
  intro cs
  induction cs with
  | nil => intro m r h; exact h
  | cons c cs ih =>
    intro m r hrect
    simp only [gjeGo]
    split_ifs with hlen
    · exact hrect
    · push_neg at hlen
      exact ih _ _ (rect_gjeStep m w r c hrect hlen)

theorem bitsM_gjeGo : ∀ (cs : List Nat) (m : List (List Nat)) (r : Nat),
    BitsM m → BitsM (gjeGo m r cs) := by
  intro cs
  induction cs with
  | nil => intro m r h; exact h
  | cons c cs ih =>
    intro m r hbits
    simp only [gjeGo]
    split_ifs with hlen
    · exact hbits
    · push_neg at hlen
      exact ih _ _ (bitsM_gjeStep m r c hbits hlen)

theorem rref_gjeGo (w : Nat) : ∀ (k c r : Nat) (m : List (List Nat)) (pv : List Nat),
    Rect m (w + 1) → BitsM m → RREFState m w c r pv → c + k ≤ w →
    ∃ r2 pv2, RREFState (gjeGo m r (List.range' c k)) w (c + k) r2 pv2 := by
  intro k
  induction k with
  | zero =>
    intro c r m pv _ _ hs _
    exact ⟨r, pv, hs⟩
  | succ k ih =>
    intro c r m pv hrect hbits hs hck
    rw [List.range'_succ]
    simp only [gjeGo]
    split_ifs with hlen
    · exact ⟨r, pv, rref_break m w c (c + (k + 1)) r pv hs (by omega) hlen⟩
    · push_neg at hlen
      have harith : c + (k + 1) = (c + 1) + k := by omega
      rw [harith]
      unfold gjeStep
      cases hfp : findPivot m r c with
      | none =>
        simp only
        exact ih (c + 1) r m pv hrect hbits (rref_step_none m w c r pv hbits hs hfp)
          (by omega)
      | some p =>
        simp only
        obtain ⟨hp1, hp2, hp3, hp4⟩ := findPivot_some_entry m r c p hfp
        have hM1eq : (if r ≠ p then swapRows m r p else m) = swapRows m r p := by
          split_ifs with h
          · rfl
          · push_neg at h
            rw [h, swapRows_self]
        rw [hM1eq]
        exact ih (c + 1) (r + 1) _ (pv ++ [c])
          (rect_elimStep _ (w + 1) r c (rect_swapRows m (w + 1) r p hrect hlen hp2)
            (by rw [length_swapRows]; omega))
          (bitsM_elimStep _ r c (bitsM_swapRows m r p hbits hlen hp2)
            (by rw [length_swapRows]; omega))
          (rref_step_some m w c r p pv hrect hbits hs hlen hfp)
          (by omega)

/-! ### From the RREF invariant to solvability (claim C4) -/

theorem dot2_even : ∀ (u x : List Nat),
    (∀ q, q < u.length → q < x.length → (u.getD q 0 * x.getD q 0) % 2 = 0) →
    dot2 u x = 0 := by
  intro u
  induction u with
  | nil => intro x _; rfl
  | cons a u ih =>
    intro x h
    cases x with
    | nil => rfl
    | cons y x =>
      have h0 := h 0 (by simp) (by simp)
      simp only [List.getD_cons_zero] at h0
      have hS := ih x (fun q hq1 hq2 => by
        have := h (q + 1) (by simpa using hq1) (by simpa using hq2)
        simpa using this)
      unfold dot2 at hS ⊢
      simp only [List.zipWith_cons_cons, List.sum_cons]
      omega

theorem dot2_single : ∀ (u x : List Nat) (t : Nat),
    (∀ q, q < u.length → q < x.length → q ≠ t → (u.getD q 0 * x.getD q 0) % 2 = 0) →
    dot2 u x =
      if t < u.length ∧ t < x.length then (u.getD t 0 * x.getD t 0) % 2 else 0 := by
  intro u
  induction u with
  | nil =>
    intro x t _
    rw [if_neg (by simp)]
    rfl
  | cons a u ih =>
    intro x t h
    cases x with
    | nil =>
      rw [if_neg (by simp)]
      rfl
    | cons y x =>
      cases t with
      | zero =>
        have hS : dot2 u x = 0 := dot2_even u x (fun q hq1 hq2 => by
          have := h (q + 1) (by simpa using hq1) (by simpa using hq2) (by omega)
          simpa using this)
        rw [if_pos ⟨by simp, by simp⟩]
        unfold dot2 at hS ⊢
        simp only [List.zipWith_cons_cons, List.sum_cons, List.getD_cons_zero]
        omega
      | succ t =>
        have h0 := h 0 (by simp) (by simp) (by omega)
        simp only [List.getD_cons_zero] at h0
        have hS := ih x t (fun q hq1 hq2 hqt => by
          have := h (q + 1) (by simpa using hq1) (by simpa using hq2) (by omega)
          simpa using this)
        unfold dot2 at hS ⊢
        simp only [List.zipWith_cons_cons, List.sum_cons, List.getD_cons_succ,
          List.length_cons]
        have hcond : (t + 1 < u.length + 1 ∧ t + 1 < x.length + 1) ↔
            (t < u.length ∧ t < x.length) := by omega
        split_ifs with hc1
        · rw [if_pos (hcond.mp hc1)] at hS
          omega
        · rw [if_neg (fun hx => hc1 (hcond.mpr hx))] at hS
          omega

theorem indexOf_getD_self (pv : List Nat)
    (hmono : ∀ a b, a < b → b < pv.length → pv.getD a 0 < pv.getD b 0)
    (i : Nat) (hi : i < pv.length) : pv.indexOf (pv.getD i 0) = i := by
  have hmem : pv.getD i 0 ∈ pv := getD_mem_of_lt pv i 0 hi
  have hlt : pv.indexOf (pv.getD i 0) < pv.length := List.indexOf_lt_length.mpr hmem
  have hval : pv[pv.indexOf (pv.getD i 0)] = pv.getD i 0 := List.getElem_indexOf hlt
  have hval2 : pv.getD (pv.indexOf (pv.getD i 0)) 0 = pv.getD i 0 := by
    rw [getD_eq_getElem_of_lt pv _ 0 hlt, hval]
  rcases Nat.lt_trichotomy (pv.indexOf (pv.getD i 0)) i with h | h | h
  · have := hmono _ i h hi
    omega
  · exact h
  · have := hmono i _ h hlt
    omega

theorem any_eq_false_iff_idx (m : List (List Nat)) (f : List Nat → Bool) :
    (m.any f = false) ↔ ∀ i, i < m.length → f (m.getD i []) = false := by
  rw [List.any_eq_false]
  constructor
  · intro h i hi
    have := h _ (getD_mem_of_lt m i [] hi)
    simpa using this
  · intro h row hrow
    obtain ⟨i, hi, hrw⟩ := List.mem_iff_getElem.mp hrow
    rw [← hrw, ← getD_eq_getElem_of_lt m i [] hi, h i hi]
    decide

theorem is_solvable_iff_no_contradiction (m : List (List Nat)) :
    is_solvable m = true ↔
      ∀ i, i < (gauss_jordan_elimination m).length →
        contradictionRow ((gauss_jordan_elimination m).getD i []) = false := by
  unfold is_solvable
  rw [Bool.not_eq_true']
  exact any_eq_false_iff_idx _ _

theorem no_solution_of_contradiction (G : List (List Nat)) (i : Nat)
    (hi : i < G.length) (hcr : contradictionRow (G.getD i []) = true) (x : List Nat) :
    ¬SatSys G x := by
  intro hsat
  have hrow := hsat i hi
  unfold SatRow at hrow
  unfold contradictionRow at hcr
  rw [Bool.and_eq_true] at hcr
  obtain ⟨h1, h2⟩ := hcr
  have hlast : (G.getD i []).getLastD 0 = 1 := by simpa using h1
  have hz : dot2 (G.getD i []).dropLast x = 0 := by
    apply dot2_even
    intro q hq1 hq2
    have hmem : (G.getD i []).dropLast.getD q 0 ∈ (G.getD i []).dropLast :=
      getD_mem_of_lt _ q 0 hq1
    have hz0 : (G.getD i []).dropLast.getD q 0 = 0 := by
      simpa using List.all_eq_true.mp h2 _ hmem
    rw [hz0]
    simp
  rw [hz, hlast] at hrow
  exact absurd hrow (by omega)

set_option maxHeartbeats 1000000 in
theorem exists_solution_of_no_contradiction (G : List (List Nat)) (w r2 : Nat)
    (pv2 : List Nat) (hrect : Rect G (w + 1)) (hbits : BitsM G)
    (hrr : RREFState G w w r2 pv2)
    (hnc : ∀ i, i < G.length → contradictionRow (G.getD i []) = false) :
    ∃ x, x.length = w ∧ Bits x ∧ SatSys G x := by
  obtain ⟨plen, rle, pub, pmono, pone, pzero, below, lead⟩ := hrr
  refine ⟨(List.range w).map (fun q =>
      if q ∈ pv2 then entry G (pv2.indexOf q) w else 0), by simp, ?_, ?_⟩
  · rw [bits_iff_idx]
    intro q hq
    rw [List.length_map, List.length_range] at hq
    rw [getD_range_map _ w q 0 hq]
    split_ifs with hmem
    · have hidx : pv2.indexOf q < pv2.length := List.indexOf_lt_length.mpr hmem
      have hig : pv2.indexOf q < G.length := by omega
      exact bitsM_entry G _ w hbits hig (by rw [rect_row G (w + 1) _ hrect hig]; omega)
    · omega
  · intro i hi
    unfold SatRow
    have hrowlen : (G.getD i []).length = w + 1 := rect_row G (w + 1) i hrect hi
    have hdllen : (G.getD i []).dropLast.length = w := by
      rw [List.length_dropLast, hrowlen]
      omega
    have hxlen : ((List.range w).map (fun q =>
        if q ∈ pv2 then entry G (pv2.indexOf q) w else 0)).length = w := by simp
    have hw1 : w + 1 - 1 = w := by omega
    have hlast : (G.getD i []).getLastD 0 = entry G i w := by
      rw [getLastD_eq_getD, hrowlen, hw1]
      rfl
    have hxval : ∀ q, q < w → ((List.range w).map (fun q =>
        if q ∈ pv2 then entry G (pv2.indexOf q) w else 0)).getD q 0 =
        if q ∈ pv2 then entry G (pv2.indexOf q) w else 0 := by
      intro q hq
      exact getD_range_map _ w q 0 hq
    have hu : ∀ q, q < w → (G.getD i []).dropLast.getD q 0 = entry G i q := by
      intro q hq
      exact getD_dropLast_eq _ q (by omega)
    rcases Nat.lt_or_ge i r2 with hir | hir
    · have hiP : i < pv2.length := by omega
      have hpiw : pv2.getD i 0 < w := pub _ (getD_mem_of_lt pv2 i 0 hiP)
      have hside : ∀ q, q < (G.getD i []).dropLast.length →
          q < ((List.range w).map (fun q =>
            if q ∈ pv2 then entry G (pv2.indexOf q) w else 0)).length →
          q ≠ pv2.getD i 0 →
          ((G.getD i []).dropLast.getD q 0 *
            ((List.range w).map (fun q =>
              if q ∈ pv2 then entry G (pv2.indexOf q) w else 0)).getD q 0) % 2 = 0 := by
        intro q hq1 hq2 hqt
        rw [hdllen] at hq1
        rw [hu q hq1, hxval q hq1]
        split_ifs with hmem
        · have hidx : pv2.indexOf q < pv2.length := List.indexOf_lt_length.mpr hmem
          have hval : pv2.getD (pv2.indexOf q) 0 = q := by
            rw [getD_eq_getElem_of_lt pv2 _ 0 hidx, List.getElem_indexOf hidx]
          have hknei : i ≠ pv2.indexOf q := fun he => hqt (by rw [← hval, ← he])
          have hzq : entry G i q = 0 := by
            rw [← hval]
            exact pzero _ hidx i hi hknei
          rw [hzq]
          simp
        · simp
      rw [dot2_single _ _ (pv2.getD i 0) hside]
      rw [if_pos ⟨by omega, by omega⟩]
      rw [hu _ hpiw, hxval _ hpiw]
      rw [if_pos (getD_mem_of_lt pv2 i 0 hiP)]
      rw [indexOf_getD_self pv2 pmono i hiP]
      rw [pone i hiP, hlast]
      have hb2 : entry G i w < 2 := bitsM_entry G i w hbits hi (by omega)
      omega
    · have hz : dot2 (G.getD i []).dropLast ((List.range w).map (fun q =>
          if q ∈ pv2 then entry G (pv2.indexOf q) w else 0)) = 0 := by
        apply dot2_even
        intro q hq1 hq2
        rw [hdllen] at hq1
        rw [hu q hq1, below i hir hi q hq1]
        simp
      rw [hz, hlast]
      have hdz : (G.getD i []).dropLast.all (fun v => v == 0) = true := by
        rw [List.all_eq_true]
        intro v hv
        obtain ⟨q, hq, he⟩ := List.mem_iff_getElem.mp hv
        have hqw : q < w := by rw [hdllen] at hq; exact hq
        rw [← he, ← getD_eq_getElem_of_lt _ q 0 hq, hu q hqw, below i hir hi q hqw]
        rfl
      have hcr := hnc i hi
      unfold contradictionRow at hcr
      rw [hdz, Bool.and_true] at hcr
      have hne1 : (G.getD i []).getLastD 0 ≠ 1 := by simpa using hcr
      rw [hlast] at hne1
      have hb2 : entry G i w < 2 := bitsM_entry G i w hbits hi (by omega)
      omega

theorem cam_length (vectors : List (List Nat)) (board : List Nat) :
    (create_augmented_matrix vectors board).length = vectors.length := by
  simp [create_augmented_matrix]

theorem cvr_length (n : Nat) : (create_vector_representations n).length = n * n := by
  simp [create_vector_representations]

theorem cam_getD (vectors : List (List Nat)) (board : List Nat) (i : Nat)
    (hi : i < vectors.length) :
    (create_augmented_matrix vectors board).getD i [] =
      vectors.getD i [] ++ [board.getD i 0] := by
  unfold create_augmented_matrix
  rw [List.getD_eq_getElem?_getD, List.getElem?_map, List.getElem?_enum,
    List.getElem?_eq_getElem hi]
  simp only [Option.map_some', Option.getD_some]
  rw [getD_eq_getElem_of_lt vectors i [] hi]

theorem make_vector_bits (n i : Nat) (hi : i < n * n) : Bits (make_vector n i) := by
  rw [bits_iff_idx]
  intro q hq
  rw [make_vector_length] at hq
  rw [make_vector_getD n i q hi hq]
  split_ifs <;> omega

theorem cam_rect (n : Nat) (board : List Nat) :
    Rect (create_augmented_matrix (create_vector_representations n) board)
      (n * n + 1) := by
  rw [rect_iff_idx]
  intro i hi
  rw [cam_length, cvr_length] at hi
  rw [cam_getD _ _ i (by rw [cvr_length]; exact hi)]
  rw [List.length_append, List.length_singleton, cvr_getD n i hi, make_vector_length]

theorem cam_bitsM (n : Nat) (board : List Nat) (hbb : Bits board)
    (hb : board.length = n * n) :
    BitsM (create_augmented_matrix (create_vector_representations n) board) := by
  rw [bitsM_iff_idx]
  intro i hi
  rw [cam_length, cvr_length] at hi
  rw [cam_getD _ _ i (by rw [cvr_length]; exact hi)]
  intro x hx
  rcases List.mem_append.mp hx with h | h
  · rw [cvr_getD n i hi] at h
    exact make_vector_bits n i hi x h
  · have hxb : x = board.getD i 0 := by simpa using h
    rw [hxb]
    exact hbb _ (getD_mem_of_lt board i 0 (by omega))

theorem length_gje (m : List (List Nat)) :
    (gauss_jordan_elimination m).length = m.length := by
  unfold gauss_jordan_elimination
  exact length_gjeGo _ _ _

theorem rect_gje (m : List (List Nat)) (w : Nat) (hrect : Rect m w) :
    Rect (gauss_jordan_elimination m) w := by
  unfold gauss_jordan_elimination
  exact rect_gjeGo w _ m 0 hrect

theorem bitsM_gje (m : List (List Nat)) (hbits : BitsM m) :
    BitsM (gauss_jordan_elimination m) := by
  unfold gauss_jordan_elimination
  exact bitsM_gjeGo _ m 0 hbits

/-- The full run of `gauss_jordan_elimination` establishes the RREF
invariant over all coefficient columns. -/
theorem rref_gje (m : List (List Nat)) (w : Nat) (hne : m ≠ [])
    (hrect : Rect m (w + 1)) (hbits : BitsM m) :
    ∃ r2 pv2, RREFState (gauss_jordan_elimination m) w w r2 pv2 := by
  unfold gauss_jordan_elimination
  have hlen0 : 0 < m.length := List.length_pos.mpr hne
  have hcols : (m.getD 0 []).length = w + 1 := rect_row m (w + 1) 0 hrect hlen0
  rw [hcols, Nat.add_sub_cancel, List.range_eq_range']
  have hgo := rref_gjeGo w w 0 0 m [] hrect hbits (rref_init m w) (by omega)
  simpa using hgo

theorem satSys_cam_iff (n : Nat) (board x : List Nat) :
    SatSys (create_augmented_matrix (create_vector_representations n) board) x ↔
      ∀ i, i < n * n →
        dot2 ((create_vector_representations n).getD i []) x = board.getD i 0 := by
  unfold SatSys
  constructor
  · intro h i hi
    have hs := h i (by rw [cam_length, cvr_length]; exact hi)
    rw [cam_getD _ _ i (by rw [cvr_length]; exact hi)] at hs
    unfold SatRow at hs
    rw [List.dropLast_concat, List.getLastD_concat] at hs
    exact hs
  · intro h i hi
    rw [cam_length, cvr_length] at hi
    rw [cam_getD _ _ i (by rw [cvr_length]; exact hi)]
    unfold SatRow
    rw [List.dropLast_concat, List.getLastD_concat]
    exact h i hi

/-- C4: for the augmented matrix built from the `n²` toggle vectors
and a board, `is_solvable` returns `true` iff some bit vector `x` over
GF(2) satisfies `A·x = b` (row `i`: the toggle vector of cell `i`
dotted with `x` equals board bit `i`); the underdetermined case counts
as solvable. -/
theorem is_solvable_iff_exists_solution (n : Nat) (board : List Nat)
    (hn : 1 ≤ n) (hb : board.length = n * n) (hbb : Bits board) :
    (is_solvable (create_augmented_matrix (create_vector_representations n) board) =
        true ↔
      ∃ x, x.length = n * n ∧ Bits x ∧ ∀ i, i < n * n →
        dot2 ((create_vector_representations n).getD i []) x = board.getD i 0) := by
  have hn2 : 1 ≤ n * n := Nat.one_le_iff_ne_zero.mpr (by positivity)
  have hMlen : (create_augmented_matrix (create_vector_representations n) board).length
      = n * n := by rw [cam_length, cvr_length]
  have hMne : create_augmented_matrix (create_vector_representations n) board ≠ [] := by
    intro he
    rw [he] at hMlen
    simp at hMlen
    omega
  have hrect := cam_rect n board
  have hbitsM := cam_bitsM n board hbb hb
  have hGrect := rect_gje _ (n * n + 1) hrect
  have hGbits := bitsM_gje _ hbitsM
  obtain ⟨r2, pv2, hrr⟩ := rref_gje _ (n * n) hMne hrect hbitsM
  constructor
  · intro hsolv
    have hnc := (is_solvable_iff_no_contradiction _).mp hsolv
    obtain ⟨x, hxl, hxb, hxs⟩ := exists_solution_of_no_contradiction
      (gauss_jordan_elimination
        (create_augmented_matrix (create_vector_representations n) board))
      (n * n) r2 pv2 hGrect hGbits hrr hnc
    refine ⟨x, hxl, hxb, ?_⟩
    exact (satSys_cam_iff n board x).mp ((satSys_gje _ (n * n) x hrect hbitsM).mp hxs)
  · rintro ⟨x, hxl, hxb, hx⟩
    by_contra hns
    have hfalse : is_solvable
        (create_augmented_matrix (create_vector_representations n) board) = false := by
      cases h : is_solvable
        (create_augmented_matrix (create_vector_representations n) board)
      · rfl
      · exact absurd h hns
    unfold is_solvable at hfalse
    rw [Bool.not_eq_false'] at hfalse
    rw [List.any_eq_true] at hfalse
    obtain ⟨row, hrow, hcr⟩ := hfalse
    obtain ⟨i, hi, hieq⟩ := List.mem_iff_getElem.mp hrow
    have hcr2 : contradictionRow ((gauss_jordan_elimination
        (create_augmented_matrix (create_vector_representations n) board)).getD i [])
        = true := by
      rw [getD_eq_getElem_of_lt _ i [] hi, hieq]
      exact hcr
    exact no_solution_of_contradiction _ i hi hcr2 x
      ((satSys_gje _ (n * n) x hrect hbitsM).mpr ((satSys_cam_iff n board x).mpr hx))

/-- Witness for C4 at `n = 1`, board `[1]`. -/
theorem is_solvable_iff_exists_solution_witness :
    (1 ≤ 1 ∧ ([1] : List Nat).length = 1 * 1 ∧ Bits [1]) ∧
      (is_solvable (create_augmented_matrix (create_vector_representations 1) [1]) =
          true ↔
        ∃ x, x.length = 1 * 1 ∧ Bits x ∧ ∀ i, i < 1 * 1 →
          dot2 ((create_vector_representations 1).getD i []) x =
            ([1] : List Nat).getD i 0) :=
  ⟨⟨by decide, by decide, by decide⟩,
    is_solvable_iff_exists_solution 1 [1] (by decide) (by decide) (by decide)⟩

/-! ### Idempotence of the reduction (claim C6) -/

theorem elimStep_id (m : List (List Nat)) (r c : Nat)
    (h : ∀ i, i < m.length → i ≠ r → entry m i c ≠ 1) : elimStep m r c = m := by
  apply List.ext_getElem (by rw [length_elimStep])
  intro i h1 h2
  rw [← getD_eq_getElem_of_lt _ i [] h1, ← getD_eq_getElem_of_lt _ i [] h2,
    getD_elimStep m r c i h2]
  rw [if_neg (fun hc => h i h2 hc.1 hc.2)]

set_option maxHeartbeats 1000000 in
theorem gjeGo_fixed (G : List (List Nat)) (w r2 : Nat) (pv2 : List Nat)
    (hrr : RREFState G w w r2 pv2) :
    ∀ (k c j : Nat), c + k ≤ w → j ≤ pv2.length →
      (∀ t, t < j → pv2.getD t 0 < c) →
      (∀ t, j ≤ t → t < pv2.length → c ≤ pv2.getD t 0) →
      gjeGo G j (List.range' c k) = G := by
  obtain ⟨plen, rle, pub, pmono, pone, pzero, below, lead⟩ := hrr
  intro k
  induction k with
  | zero => intro c j _ _ _ _; rfl
  | succ k ih =>
    intro c j hck hj hlo hhi
    rw [List.range'_succ]
    simp only [gjeGo]
    split_ifs with hlen
    · rfl
    · push_neg at hlen
      by_cases hpv : j < pv2.length ∧ pv2.getD j 0 = c
      · obtain ⟨hjP, hjc⟩ := hpv
        have hfp : findPivot G j c = some j := by
          unfold findPivot
          obtain ⟨k2, hk2⟩ : ∃ k2, G.length - j = k2 + 1 := ⟨G.length - j - 1, by omega⟩
          rw [hk2, List.range'_succ]
          apply List.find?_cons_of_pos
          have hone := pone j hjP
          rw [hjc] at hone
          simp [hone]
        unfold gjeStep
        rw [hfp]
        simp only
        rw [if_neg (by omega)]
        have helim : elimStep G j c = G := by
          apply elimStep_id
          intro i hi hij
          have hz : entry G i c = 0 := by
            rw [← hjc]
            exact pzero j hjP i hi hij
          omega
        rw [helim]
        apply ih (c + 1) (j + 1) (by omega) (by omega)
        · intro t ht
          rcases Nat.lt_or_ge t j with h1 | h1
          · exact Nat.lt_succ_of_lt (hlo t h1)
          · have : t = j := by omega
            rw [this, hjc]
            omega
        · intro t ht1 ht2
          have h2 := pmono j t (by omega) ht2
          rw [hjc] at h2
          omega
      · have hnotc : ∀ t, j ≤ t → t < pv2.length → pv2.getD t 0 ≠ c := by
          intro t ht1 ht2 he
          rcases Nat.eq_or_lt_of_le ht1 with h1 | h1
          · exact hpv ⟨by omega, by rw [← h1] at he; exact he⟩
          · have hjP : j < pv2.length := by omega
            have h2 := hhi j (Nat.le_refl j) hjP
            have h3 := pmono j t h1 ht2
            omega
        have hfp : findPivot G j c = none := by
          unfold findPivot
          rw [find?_range'_none]
          intro i hi1 hi2
          have hilen : i < G.length := by omega
          have hne : entry G i c ≠ 1 := by
            rcases Nat.lt_or_ge i r2 with hir | hir
            · have hiP : i < pv2.length := by omega
              have hge := hhi i hi1 hiP
              have hgt : c < pv2.getD i 0 :=
                Nat.lt_of_le_of_ne hge (fun he => hnotc i hi1 hiP he.symm)
              have := lead i hiP c hgt
              omega
            · have := below i hir hilen c (by omega)
              omega
          simp [hne]
        unfold gjeStep
        rw [hfp]
        exact ih (c + 1) j (by omega) hj
          (fun t ht => Nat.lt_succ_of_lt (hlo t ht))
          (fun t ht1 ht2 =>
            Nat.lt_of_le_of_ne (hhi t ht1 ht2) (fun he => hnotc t ht1 ht2 he.symm))

theorem gje_fixed (G : List (List Nat)) (w r2 : Nat) (pv2 : List Nat)
    (hne : G ≠ []) (hrect : Rect G (w + 1)) (hrr : RREFState G w w r2 pv2) :
    gauss_jordan_elimination G = G := by
  obtain ⟨plen, rle, pub, pmono, pone, pzero, below, lead⟩ := hrr
  unfold gauss_jordan_elimination
  have hlen0 : 0 < G.length := List.length_pos.mpr hne
  rw [rect_row G (w + 1) 0 hrect hlen0, Nat.add_sub_cancel, List.range_eq_range']
  exact gjeGo_fixed G w r2 pv2
    ⟨plen, rle, pub, pmono, pone, pzero, below, lead⟩ w 0 0 (by omega)
    (by omega) (fun t ht => absurd ht (by omega)) (fun t _ _ => Nat.zero_le _)

/-- C6: `gauss_jordan_elimination` is idempotent — for every non-empty
rectangular 0/1 matrix, reducing the already-reduced matrix returns it
unchanged: `reduce (reduce M) = reduce M`. -/
theorem gje_idempotent (M : List (List Nat)) (c : Nat) (hne : M ≠ [])
    (hrect : Rect M c) (hbits : BitsM M) :
    gauss_jordan_elimination (gauss_jordan_elimination M) =
      gauss_jordan_elimination M := by
  have hlen0 : 0 < M.length := List.length_pos.mpr hne
  cases c with
  | zero =>
    have hfix : gauss_jordan_elimination M = M := by
      unfold gauss_jordan_elimination
      rw [rect_row M 0 0 hrect hlen0]
      rfl
    rw [hfix, hfix]
  | succ w =>
    have hGne : gauss_jordan_elimination M ≠ [] := by
      intro he
      have := length_gje M
      rw [he] at this
      simp at this
      omega
    obtain ⟨r2, pv2, hrr⟩ := rref_gje M w hne hrect hbits
    exact gje_fixed _ w r2 pv2 hGne (rect_gje M (w + 1) hrect) hrr

/-- Witness for C6 at a concrete reduced 2×3 augmented matrix. -/
theorem gje_idempotent_witness :
    (([[1, 0, 1], [0, 1, 1]] : List (List Nat)) ≠ [] ∧
      Rect [[1, 0, 1], [0, 1, 1]] 3 ∧ BitsM [[1, 0, 1], [0, 1, 1]]) ∧
      gauss_jordan_elimination (gauss_jordan_elimination [[1, 0, 1], [0, 1, 1]]) =
        gauss_jordan_elimination [[1, 0, 1], [0, 1, 1]] :=
  ⟨⟨by decide, by decide, by decide⟩,
    gje_idempotent [[1, 0, 1], [0, 1, 1]] 3 (by decide) (by decide) (by decide)⟩

/-! ### Heap model: basic cell lemmas -/

theorem length_hwrite (h : Heap) (q : Nat) (v : HVal) :
    (hwrite h q v).length = h.length := by
  simp [hwrite]

theorem getD_hwrite (h : Heap) (q r : Nat) (v : HVal) :
    (hwrite h q v).getD r (HVal.ints []) =
      if q = r ∧ q < h.length then v else h.getD r (HVal.ints []) := by
  unfold hwrite
  exact getD_set_any h q r v (HVal.ints [])

theorem readInts_hwrite_ne (h : Heap) (q r : Nat) (v : HVal) (hne : q ≠ r) :
    readInts (hwrite h q v) r = readInts h r := by
  unfold readInts
  rw [getD_hwrite, if_neg (fun hc => hne hc.1)]

theorem readRefs_hwrite_ne (h : Heap) (q r : Nat) (v : HVal) (hne : q ≠ r) :
    readRefs (hwrite h q v) r = readRefs h r := by
  unfold readRefs
  rw [getD_hwrite, if_neg (fun hc => hne hc.1)]

theorem readInts_hwrite_self (h : Heap) (q : Nat) (xs : List Nat) (hq : q < h.length) :
    readInts (hwrite h q (HVal.ints xs)) q = xs := by
  unfold readInts
  rw [getD_hwrite, if_pos ⟨rfl, hq⟩]

theorem readRefs_hwrite_self (h : Heap) (q : Nat) (rs : List Nat) (hq : q < h.length) :
    readRefs (hwrite h q (HVal.refs rs)) q = rs := by
  unfold readRefs
  rw [getD_hwrite, if_pos ⟨rfl, hq⟩]

/-! ### Heap model: the inner xor loop -/

theorem hXorLoop_length : ∀ (js : List Nat) (h : Heap) (ti si : Nat),
    (hXorLoop h ti si js).length = h.length := by
  intro js
  induction js with
  | nil => intro h ti si; rfl
  | cons j js ih =>
    intro h ti si
    simp only [hXorLoop]
    rw [ih, length_hwrite]

theorem hXorLoop_frame : ∀ (js : List Nat) (h : Heap) (ti si q : Nat), q ≠ ti →
    (hXorLoop h ti si js).getD q (HVal.ints []) = h.getD q (HVal.ints []) := by
  intro js
  induction js with
  | nil => intro h ti si q _; rfl
  | cons j js ih =>
    intro h ti si q hq
    simp only [hXorLoop]
    rw [ih _ _ _ _ hq, getD_hwrite, if_neg (fun hc => hq hc.1.symm)]

theorem hXorLoop_val : ∀ (js : List Nat) (h : Heap) (ti si : Nat), ti ≠ si →
    ti < h.length →
    readInts (hXorLoop h ti si js) ti =
      js.foldl (fun acc j => acc.set j (acc.getD j 0 ^^^ (readInts h si).getD j 0))
        (readInts h ti) := by
  intro js
  induction js with
  | nil => intro h ti si _ _; rfl
  | cons j js ih =>
    intro h ti si hne hlt
    simp only [hXorLoop, List.foldl_cons]
    rw [ih _ _ _ hne (by rw [length_hwrite]; exact hlt)]
    rw [readInts_hwrite_ne h ti si _ hne, readInts_hwrite_self h ti _ hlt]

theorem foldl_set_length (f : Nat → Nat) :
    ∀ (js : List Nat) (u : List Nat) (g : List Nat → Nat → Nat),
    (js.foldl (fun acc j => acc.set j (g acc j)) u).length = u.length := by
  intro js
  induction js with
  | nil => intro u g; rfl
  | cons j js ih =>
    intro u g
    simp only [List.foldl_cons]
    rw [ih, List.length_set]

theorem foldl_set_xor_getD (v : List Nat) : ∀ (t : Nat) (u : List Nat) (q : Nat),
    ((List.range t).foldl
        (fun acc j => acc.set j (acc.getD j 0 ^^^ v.getD j 0)) u).getD q 0 =
      if q < t ∧ q < u.length then u.getD q 0 ^^^ v.getD q 0 else u.getD q 0 := by
  intro t
  induction t with
  | zero =>
    intro u q
    rw [if_neg (by omega)]
    rfl
  | succ t ih =>
    intro u q
    rw [List.range_succ, List.foldl_append]
    simp only [List.foldl_cons, List.foldl_nil]
    rw [getD_set_any]
    rw [foldl_set_length (fun x => x)]
    by_cases h1 : t = q
    · subst h1
      by_cases h2 : t < u.length
      · rw [if_pos ⟨rfl, h2⟩, if_pos ⟨by omega, h2⟩, ih u t, if_neg (by omega)]
      · rw [if_neg (by tauto), if_neg (by omega), ih u t, if_neg (by omega)]
    · rw [if_neg (by tauto), ih u q]
      have hiff : (q < t ∧ q < u.length) ↔ (q < t + 1 ∧ q < u.length) := by omega
      rw [if_congr hiff rfl rfl]

theorem foldl_set_xor (u v : List Nat) (cols : Nat) (hu : u.length = cols)
    (hv : v.length = cols) :
    (List.range cols).foldl
        (fun acc j => acc.set j (acc.getD j 0 ^^^ v.getD j 0)) u =
      List.zipWith Nat.xor u v := by
  apply ext_getD
  · rw [foldl_set_length (fun x => x), List.length_zipWith]
    omega
  · intro q hq
    rw [foldl_set_length (fun x => x)] at hq
    rw [foldl_set_xor_getD, if_pos ⟨by omega, hq⟩,
      getD_zipWith_xor_eqlen u v q (by omega)]
    rfl

/-! ### Heap model: matrix views and the swap -/

theorem matVals_length (h : Heap) (mref : Nat) :
    (matVals h mref).length = (readRefs h mref).length := by
  simp [matVals]

theorem matVals_getD (h : Heap) (mref i : Nat)
    (hi : i < (readRefs h mref).length) :
    (matVals h mref).getD i [] = readInts h ((readRefs h mref).getD i 0) := by
  unfold matVals
  rw [List.getD_eq_getElem?_getD, List.getElem?_map, List.getElem?_eq_getElem hi]
  simp only [Option.map_some', Option.getD_some]
  rw [getD_eq_getElem_of_lt _ i 0 hi]

theorem hentry_eq (h : Heap) (mref i c : Nat)
    (hi : i < (readRefs h mref).length) :
    hentry h mref i c = entry (matVals h mref) i c := by
  unfold hentry entry rowRef
  rw [matVals_getD h mref i hi]

theorem getD_swap_any {α : Type} (l : List α) (r p i : Nat) (d : α)
    (hr : r < l.length) (hp : p < l.length) :
    ((l.set r (l.getD p d)).set p (l.getD r d)).getD i d =
      l.getD (if i = p then r else if i = r then p else i) d := by
  rw [getD_set_any, getD_set_any]
  simp only [List.length_set]
  by_cases hip : i = p
  · rw [if_pos ⟨hip.symm, hp⟩, if_pos hip]
  · rw [if_neg (fun hc => hip hc.1.symm), if_neg hip]
    by_cases hir : i = r
    · rw [if_pos ⟨hir.symm, hr⟩, if_pos hir]
    · rw [if_neg (fun hc => hir hc.1.symm), if_neg hir]

theorem nodup_getD_ne (l : List Nat) (d : Nat) (h : l.Nodup) (i j : Nat)
    (hi : i < l.length) (hj : j < l.length) (hij : i ≠ j) :
    l.getD i d ≠ l.getD j d := by
  rw [getD_eq_getElem_of_lt l i d hi, getD_eq_getElem_of_lt l j d hj]
  intro he
  exact hij (h.getElem_inj_iff.mp he)

theorem nodup_of_getD_inj (l : List Nat) (d : Nat)
    (h : ∀ i j, i < l.length → j < l.length → l.getD i d = l.getD j d → i = j) :
    l.Nodup := by
  rw [List.nodup_iff_injective_get]
  intro a b he
  have ha := a.isLt
  have hb := b.isLt
  have hga : l.getD a.val d = l.get a := by
    rw [getD_eq_getElem_of_lt l a.val d ha]
    rfl
  have hgb : l.getD b.val d = l.get b := by
    rw [getD_eq_getElem_of_lt l b.val d hb]
    rfl
  have := h a.val b.val ha hb (by rw [hga, hgb, he])
  exact Fin.ext this

theorem swap_length {α : Type} (l : List α) (r p : Nat) (d : α) :
    ((l.set r (l.getD p d)).set p (l.getD r d)).length = l.length := by
  simp

theorem mem_swap_subset (l : List Nat) (r p q : Nat)
    (hr : r < l.length) (hp : p < l.length)
    (hq : q ∈ (l.set r (l.getD p 0)).set p (l.getD r 0)) : q ∈ l := by
  obtain ⟨i, hi, he⟩ := List.mem_iff_getElem.mp hq
  rw [swap_length] at hi
  rw [← getD_eq_getElem_of_lt _ i 0 (by rw [swap_length]; exact hi)] at he
  rw [getD_swap_any l r p i 0 hr hp] at he
  rw [← he]
  exact getD_mem_of_lt l _ 0 (by split_ifs <;> omega)

theorem nodup_swap (l : List Nat) (r p : Nat) (hr : r < l.length)
    (hp : p < l.length) (h : l.Nodup) :
    ((l.set r (l.getD p 0)).set p (l.getD r 0)).Nodup := by
  apply nodup_of_getD_inj _ 0
  intro i j hi hj he
  rw [swap_length] at hi hj
  rw [getD_swap_any l r p i 0 hr hp, getD_swap_any l r p j 0 hr hp] at he
  by_contra hij
  have hne : (if i = p then r else if i = r then p else i) ≠
      (if j = p then r else if j = r then p else j) := by
    split_ifs <;> omega
  exact nodup_getD_ne l 0 h _ _ (by split_ifs <;> omega) (by split_ifs <;> omega)
    hne he

theorem hSwap_length (h : Heap) (mref r p : Nat) :
    (hSwap h mref r p).length = h.length := by
  simp [hSwap, hwrite]

theorem hSwap_frame (h : Heap) (mref r p q : Nat) (hq : q ≠ mref) :
    (hSwap h mref r p).getD q (HVal.ints []) = h.getD q (HVal.ints []) := by
  unfold hSwap
  rw [getD_hwrite, if_neg (fun hc => hq hc.1.symm)]

theorem hSwap_readRefs (h : Heap) (mref r p : Nat) (hm : mref < h.length) :
    readRefs (hSwap h mref r p) mref =
      ((readRefs h mref).set r ((readRefs h mref).getD p 0)).set p
        ((readRefs h mref).getD r 0) := by
  unfold hSwap
  exact readRefs_hwrite_self h mref _ hm

theorem hSwap_matVals (h : Heap) (mref r p : Nat) (hwf : HeapMatrixWF h mref)
    (hr : r < (readRefs h mref).length) (hp : p < (readRefs h mref).length) :
    matVals (hSwap h mref r p) mref = swapRows (matVals h mref) r p := by
  unfold matVals swapRows
  rw [hSwap_readRefs h mref r p hwf.mlt]
  have hcong : ∀ a ∈ ((readRefs h mref).set r ((readRefs h mref).getD p 0)).set p
      ((readRefs h mref).getD r 0), readInts (hSwap h mref r p) a = readInts h a := by
    intro a ha
    have hmem := mem_swap_subset _ r p a hr hp ha
    unfold readInts
    rw [hSwap_frame h mref r p a (hwf.rowne a hmem)]
  rw [List.map_congr_left hcong, List.map_set, List.map_set]
  have hgp : ((readRefs h mref).map (readInts h)).getD p [] =
      readInts h ((readRefs h mref).getD p 0) := matVals_getD h mref p hp
  have hgr : ((readRefs h mref).map (readInts h)).getD r [] =
      readInts h ((readRefs h mref).getD r 0) := matVals_getD h mref r hr
  rw [hgp, hgr]

theorem hSwap_WF (h : Heap) (mref r p : Nat) (hwf : HeapMatrixWF h mref)
    (hr : r < (readRefs h mref).length) (hp : p < (readRefs h mref).length) :
    HeapMatrixWF (hSwap h mref r p) mref := by
  have hsub : ∀ q ∈ readRefs (hSwap h mref r p) mref, q ∈ readRefs h mref := by
    intro q hq
    rw [hSwap_readRefs h mref r p hwf.mlt] at hq
    exact mem_swap_subset _ r p q hr hp hq
  refine ⟨by rw [hSwap_length]; exact hwf.mlt, ?_, ?_, ?_, ?_, ?_⟩
  · refine ⟨((readRefs h mref).set r ((readRefs h mref).getD p 0)).set p
      ((readRefs h mref).getD r 0), ?_⟩
    unfold hSwap hwrite
    rw [getD_set_any, if_pos ⟨rfl, hwf.mlt⟩]
  · rw [hSwap_readRefs h mref r p hwf.mlt]
    exact nodup_swap _ r p hr hp hwf.nodup
  · intro q hq
    rw [hSwap_length]
    exact hwf.rowlt q (hsub q hq)
  · intro q hq
    exact hwf.rowne q (hsub q hq)
  · intro q hq
    have hmem := hsub q hq
    rw [hSwap_frame h mref r p q (hwf.rowne q hmem)]
    exact hwf.rowints q hmem

/-! ### Heap model: the elimination loop -/

theorem length_elimRowsOn (m : List (List Nat)) (r c : Nat) (S : List Nat) :
    (elimRowsOn m r c S).length = m.length := by
  simp [elimRowsOn]

theorem getD_elimRowsOn (m : List (List Nat)) (r c : Nat) (S : List Nat) (i : Nat)
    (hi : i < m.length) :
    (elimRowsOn m r c S).getD i [] =
      if i ∈ S ∧ i ≠ r ∧ (m.getD i []).getD c 0 = 1 then
        List.zipWith Nat.xor (m.getD i []) (m.getD r []) else m.getD i [] := by
  unfold elimRowsOn
  rw [List.getD_eq_getElem?_getD, List.getElem?_mapIdx, List.getElem?_eq_getElem hi]
  simp only [Option.map_some', Option.getD_some]
  rw [getD_eq_getElem_of_lt m i [] hi]

theorem elimRowsOn_range (m : List (List Nat)) (r c : Nat) :
    elimRowsOn m r c (List.range m.length) = elimStep m r c := by
  apply List.ext_getElem (by rw [length_elimRowsOn, length_elimStep])
  intro i h1 h2
  rw [length_elimRowsOn] at h1
  rw [← getD_eq_getElem_of_lt _ i [] (by rw [length_elimRowsOn]; exact h1),
    ← getD_eq_getElem_of_lt _ i [] (by rw [length_elimStep]; exact h1),
    getD_elimRowsOn m r c _ i h1, getD_elimStep m r c i h1]
  have hmem : i ∈ List.range m.length := List.mem_range.mpr h1
  by_cases hc : i ≠ r ∧ (m.getD i []).getD c 0 = 1
  · rw [if_pos ⟨hmem, hc.1, hc.2⟩, if_pos hc]
  · rw [if_neg (by tauto), if_neg hc]

theorem elimRowsOn_nil (m : List (List Nat)) (r c : Nat) :
    elimRowsOn m r c [] = m := by
  apply List.ext_getElem (by rw [length_elimRowsOn])
  intro i h1 h2
  rw [length_elimRowsOn] at h1
  rw [← getD_eq_getElem_of_lt _ i [] (by rw [length_elimRowsOn]; exact h1),
    ← getD_eq_getElem_of_lt _ i [] h2, getD_elimRowsOn m r c _ i h1]
  rw [if_neg (by simp)]

theorem ext_getD_rows (a b : List (List Nat)) (hl : a.length = b.length)
    (h : ∀ j, j < a.length → a.getD j [] = b.getD j []) : a = b := by
  apply List.ext_getElem hl
  intro i h1 h2
  have hg := h i h1
  rwa [List.getD_eq_getElem?_getD, List.getD_eq_getElem?_getD,
    List.getElem?_eq_getElem h1, List.getElem?_eq_getElem h2] at hg

theorem hXorLoop_cell_ints : ∀ (js : List Nat) (h : Heap) (ti si : Nat),
    (∃ xs, h.getD ti (HVal.ints []) = HVal.ints xs) →
    ∃ ys, (hXorLoop h ti si js).getD ti (HVal.ints []) = HVal.ints ys := by
  intro js
  induction js with
  | nil => intro h ti si hx; exact hx
  | cons j js ih =>
    intro h ti si hx
    simp only [hXorLoop]
    apply ih
    rw [getD_hwrite]
    by_cases hlt : ti < h.length
    · exact ⟨_, by rw [if_pos ⟨rfl, hlt⟩]⟩
    · rw [if_neg (by tauto)]
      exact hx

set_option maxHeartbeats 1600000 in
theorem hElimLoop_sim : ∀ (L : List Nat) (h : Heap) (mref r c cols : Nat),
    HeapMatrixWF h mref →
    r < (readRefs h mref).length →
    Rect (matVals h mref) cols →
    L.Nodup →
    (∀ i ∈ L, i < (readRefs h mref).length) →
    matVals (hElimLoop h mref r c cols L) mref = elimRowsOn (matVals h mref) r c L ∧
    (∀ q, q ∉ readRefs h mref →
      (hElimLoop h mref r c cols L).getD q (HVal.ints []) =
        h.getD q (HVal.ints [])) ∧
    (hElimLoop h mref r c cols L).length = h.length ∧
    readRefs (hElimLoop h mref r c cols L) mref = readRefs h mref ∧
    HeapMatrixWF (hElimLoop h mref r c cols L) mref := by
  intro L
  induction L with
  | nil =>
    intro h mref r c cols hwf hr hrect _ _
    exact ⟨(elimRowsOn_nil _ r c).symm, fun q _ => rfl, rfl, rfl, hwf⟩
  | cons i rest ih =>
    intro h mref r c cols hwf hr hrect hnd hlt
    have hiL : i < (readRefs h mref).length := hlt i (List.mem_cons_self i rest)
    have hinotrest : i ∉ rest := (List.nodup_cons.mp hnd).1
    have hndrest : rest.Nodup := (List.nodup_cons.mp hnd).2
    have hmlen : (matVals h mref).length = (readRefs h mref).length :=
      matVals_length h mref
    simp only [hElimLoop]
    by_cases hcond : (i ≠ r && hentry h mref i c == 1) = true
    · rw [if_pos hcond]
      rw [Bool.and_eq_true, decide_eq_true_eq, beq_iff_eq] at hcond
      obtain ⟨hir, hent⟩ := hcond
      have hentm : entry (matVals h mref) i c = 1 := by
        rw [← hentry_eq h mref i c hiL]
        exact hent
      have hti : rowRef h mref i ∈ readRefs h mref :=
        getD_mem_of_lt _ i 0 hiL
      have hsi : rowRef h mref r ∈ readRefs h mref :=
        getD_mem_of_lt _ r 0 hr
      have htisi : rowRef h mref i ≠ rowRef h mref r :=
        nodup_getD_ne _ 0 hwf.nodup i r hiL hr hir
      have htilt : rowRef h mref i < h.length := hwf.rowlt _ hti
      have hrowi : (matVals h mref).getD i [] = readInts h (rowRef h mref i) :=
        matVals_getD h mref i hiL
      have hrowr : (matVals h mref).getD r [] = readInts h (rowRef h mref r) :=
        matVals_getD h mref r hr
      have hleni : (readInts h (rowRef h mref i)).length = cols := by
        rw [← hrowi]
        exact rect_row _ cols i hrect (by omega)
      have hlenr : (readInts h (rowRef h mref r)).length = cols := by
        rw [← hrowr]
        exact rect_row _ cols r hrect (by omega)
      have hval : readInts (hXorLoop h (rowRef h mref i) (rowRef h mref r)
          (List.range cols)) (rowRef h mref i) =
          List.zipWith Nat.xor (readInts h (rowRef h mref i))
            (readInts h (rowRef h mref r)) := by
        rw [hXorLoop_val _ h _ _ htisi htilt]
        exact foldl_set_xor _ _ cols hleni hlenr
      have hframe1 : ∀ q, q ≠ rowRef h mref i →
          (hXorLoop h (rowRef h mref i) (rowRef h mref r)
            (List.range cols)).getD q (HVal.ints []) = h.getD q (HVal.ints []) :=
        fun q hq => hXorLoop_frame _ h _ _ q hq
      have hreadne : ∀ q, q ≠ rowRef h mref i →
          readInts (hXorLoop h (rowRef h mref i) (rowRef h mref r)
            (List.range cols)) q = readInts h q := by
        intro q hq
        unfold readInts
        rw [hframe1 q hq]
      have hrefs1 : readRefs (hXorLoop h (rowRef h mref i) (rowRef h mref r)
          (List.range cols)) mref = readRefs h mref := by
        unfold readRefs
        rw [hframe1 mref (fun he => hwf.rowne _ hti he.symm)]
      have hlen1 : (hXorLoop h (rowRef h mref i) (rowRef h mref r)
          (List.range cols)).length = h.length := hXorLoop_length _ h _ _
      have hmv1 : matVals (hXorLoop h (rowRef h mref i) (rowRef h mref r)
          (List.range cols)) mref =
          (matVals h mref).set i (List.zipWith Nat.xor ((matVals h mref).getD i [])
            ((matVals h mref).getD r [])) := by
        apply ext_getD_rows
        · rw [matVals_length, hrefs1, List.length_set, matVals_length]
        · intro j hj
          rw [matVals_length, hrefs1] at hj
          rw [matVals_getD _ mref j (by rw [hrefs1]; exact hj), hrefs1,
            getD_set_any]
          by_cases hji : i = j
          · rw [if_pos ⟨hji, by omega⟩]
            rw [← hji]
            rw [show ((readRefs h mref).getD i 0) = rowRef h mref i from rfl]
            rw [hval, hrowi, hrowr]
          · rw [if_neg (by tauto)]
            rw [hreadne _ (nodup_getD_ne _ 0 hwf.nodup j i hj hiL (fun he => hji he.symm)),
              matVals_getD h mref j hj]
      have hwf1 : HeapMatrixWF (hXorLoop h (rowRef h mref i) (rowRef h mref r)
          (List.range cols)) mref := by
        refine ⟨by rw [hlen1]; exact hwf.mlt, ?_, ?_, ?_, ?_, ?_⟩
        · obtain ⟨rs, hrs⟩ := hwf.isrefs
          refine ⟨rs, ?_⟩
          rw [hframe1 mref (fun he => hwf.rowne _ hti he.symm)]
          exact hrs
        · rw [hrefs1]; exact hwf.nodup
        · intro q hq
          rw [hrefs1] at hq
          rw [hlen1]
          exact hwf.rowlt q hq
        · intro q hq
          rw [hrefs1] at hq
          exact hwf.rowne q hq
        · intro q hq
          rw [hrefs1] at hq
          by_cases hqti : q = rowRef h mref i
          · subst hqti
            exact hXorLoop_cell_ints _ h _ _ (hwf.rowints _ hti)
          · rw [hframe1 q hqti]
            exact hwf.rowints q hq
      have hrect1 : Rect (matVals (hXorLoop h (rowRef h mref i) (rowRef h mref r)
          (List.range cols)) mref) cols := by
        rw [hmv1]
        intro row hrow
        rcases List.mem_or_eq_of_mem_set hrow with hm | hm
        · exact hrect row hm
        · rw [hm, List.length_zipWith]
          rw [hrowi, hrowr, hleni, hlenr]
          omega
      have hr1 : r < (readRefs (hXorLoop h (rowRef h mref i) (rowRef h mref r)
          (List.range cols)) mref).length := by
        rw [hrefs1]
        exact hr
      have hlt1 : ∀ k ∈ rest, k < (readRefs (hXorLoop h (rowRef h mref i)
          (rowRef h mref r) (List.range cols)) mref).length := by
        intro k hk
        rw [hrefs1]
        exact hlt k (List.mem_cons_of_mem i hk)
      obtain ⟨hv, hf, hl, hrf, hw⟩ := ih _ mref r c cols hwf1 hr1 hrect1 hndrest hlt1
      refine ⟨?_, ?_, ?_, ?_, hw⟩
      · rw [hv, hmv1]
        apply ext_getD_rows
        · rw [length_elimRowsOn, length_elimRowsOn, List.length_set]
        · intro k hk
          rw [length_elimRowsOn, List.length_set] at hk
          rw [getD_elimRowsOn _ r c _ k (by rw [List.length_set]; exact hk),
            getD_elimRowsOn _ r c _ k hk]
          have hsetr : ((matVals h mref).set i (List.zipWith Nat.xor
              ((matVals h mref).getD i []) ((matVals h mref).getD r []))).getD r [] =
              (matVals h mref).getD r [] := by
            rw [getD_set_any, if_neg (fun hc => hir hc.1)]
          by_cases hki : k = i
          · subst hki
            have hsetk : ((matVals h mref).set k (List.zipWith Nat.xor
                ((matVals h mref).getD k []) ((matVals h mref).getD r []))).getD k [] =
                List.zipWith Nat.xor ((matVals h mref).getD k [])
                  ((matVals h mref).getD r []) := by
              rw [getD_set_any, if_pos ⟨rfl, hk⟩]
            rw [hsetk, hsetr]
            rw [if_neg (fun hc => hinotrest hc.1)]
            rw [if_pos ⟨List.mem_cons_self k rest, hir, hentm⟩]
          · have hsetk : ((matVals h mref).set i (List.zipWith Nat.xor
                ((matVals h mref).getD i []) ((matVals h mref).getD r []))).getD k [] =
                (matVals h mref).getD k [] := by
              rw [getD_set_any, if_neg (fun hc => hki hc.1.symm)]
            rw [hsetk, hsetr]
            by_cases hkc : k ∈ rest ∧ k ≠ r ∧ ((matVals h mref).getD k []).getD c 0 = 1
            · rw [if_pos hkc, if_pos ⟨List.mem_cons_of_mem i hkc.1, hkc.2⟩]
            · rw [if_neg hkc, if_neg (fun hc => hkc ⟨by
                rcases List.mem_cons.mp hc.1 with he | he
                · exact absurd he hki
                · exact he, hc.2⟩)]
      · intro q hq
        rw [hf q (by rw [hrefs1]; exact hq)]
        exact hframe1 q (fun he => hq (he ▸ hti))
      · rw [hl, hlen1]
      · rw [hrf, hrefs1]
    · rw [if_neg hcond]
      have hcond2 : ¬(i ≠ r ∧ entry (matVals h mref) i c = 1) := by
        rw [← hentry_eq h mref i c hiL]
        intro hc
        exact hcond (by rw [Bool.and_eq_true, decide_eq_true_eq, beq_iff_eq]
                        exact ⟨hc.1, hc.2⟩)
      obtain ⟨hv, hf, hl, hrf, hw⟩ := ih h mref r c cols hwf hr hrect hndrest
        (fun k hk => hlt k (List.mem_cons_of_mem i hk))
      refine ⟨?_, hf, hl, hrf, hw⟩
      rw [hv]
      apply List.ext_getElem (by rw [length_elimRowsOn, length_elimRowsOn])
      intro k h1 h2
      rw [length_elimRowsOn] at h1
      rw [← getD_eq_getElem_of_lt _ k []
          (by rw [length_elimRowsOn]; exact h1),
        ← getD_eq_getElem_of_lt _ k []
          (by rw [length_elimRowsOn]; exact h1),
        getD_elimRowsOn _ r c _ k h1, getD_elimRowsOn _ r c _ k h1]
      by_cases hki : k = i
      · subst hki
        rw [if_neg (fun hc => hinotrest hc.1), if_neg (by tauto)]
      · by_cases hkr : k ∈ rest ∧ k ≠ r ∧ ((matVals h mref).getD k []).getD c 0 = 1
        · rw [if_pos hkr, if_pos ⟨List.mem_cons_of_mem i hkr.1, hkr.2⟩]
        · rw [if_neg hkr, if_neg (fun hc => hkr ⟨by
            rcases List.mem_cons.mp hc.1 with he | he
            · exact absurd he hki
            · exact he, hc.2⟩)]

/-! ### Heap model: the outer Gauss-Jordan loop -/

theorem find?_congr_mem {α : Type} : ∀ (l : List α) (p q : α → Bool),
    (∀ a ∈ l, p a = q a) → l.find? p = l.find? q := by
  intro l
  induction l with
  | nil => intro p q _; rfl
  | cons a l ih =>
    intro p q hpq
    rw [List.find?_cons, List.find?_cons, hpq a (List.mem_cons_self a l)]
    cases q a with
    | true => rfl
    | false => exact ih p q (fun b hb => hpq b (List.mem_cons_of_mem a hb))

theorem hFindPivot_eq (h : Heap) (mref r c : Nat) :
    hFindPivot h mref r c = findPivot (matVals h mref) r c := by
  unfold hFindPivot findPivot
  rw [matVals_length]
  apply find?_congr_mem
  intro i hi
  have hmem := List.mem_range'_1.mp hi
  have hilt : i < (readRefs h mref).length := by omega
  rw [hentry_eq h mref i c hilt]

set_option maxHeartbeats 1600000 in
theorem hGjeGo_sim : ∀ (cs : List Nat) (h : Heap) (mref r rows cols : Nat),
    HeapMatrixWF h mref →
    rows = (readRefs h mref).length →
    Rect (matVals h mref) cols →
    matVals (hGjeGo h mref r rows cols cs) mref = gjeGo (matVals h mref) r cs ∧
    (∀ q, q ∉ readRefs h mref → q ≠ mref →
      (hGjeGo h mref r rows cols cs).getD q (HVal.ints []) =
        h.getD q (HVal.ints [])) ∧
    (hGjeGo h mref r rows cols cs).length = h.length ∧
    (∀ q ∈ readRefs (hGjeGo h mref r rows cols cs) mref, q ∈ readRefs h mref) ∧
    (readRefs (hGjeGo h mref r rows cols cs) mref).length =
      (readRefs h mref).length ∧
    HeapMatrixWF (hGjeGo h mref r rows cols cs) mref := by
  intro cs
  induction cs with
  | nil =>
    intro h mref r rows cols hwf _ _
    exact ⟨rfl, fun q _ _ => rfl, rfl, fun q hq => hq, rfl, hwf⟩
  | cons c cs ih =>
    intro h mref r rows cols hwf hrows hrect
    have hmlen : (matVals h mref).length = (readRefs h mref).length :=
      matVals_length h mref
    simp only [hGjeGo, gjeGo, gjeStep]
    by_cases hstop : rows ≤ r
    · rw [if_pos hstop, if_pos (by omega)]
      exact ⟨rfl, fun q _ _ => rfl, rfl, fun q hq => hq, rfl, hwf⟩
    · rw [if_neg hstop, if_neg (by omega)]
      rw [hFindPivot_eq h mref r c]
      cases hfp : findPivot (matVals h mref) r c with
      | none =>
        simp only
        exact ih h mref r rows cols hwf hrows hrect
      | some p =>
        simp only
        obtain ⟨hp1, hp2, _, _⟩ := findPivot_some_entry _ r c p hfp
        have hplt : p < (readRefs h mref).length := by omega
        have hrlt : r < (readRefs h mref).length := by omega
        have hwf1 : HeapMatrixWF (if r ≠ p then hSwap h mref r p else h) mref := by
          split_ifs
          · exact hSwap_WF h mref r p hwf hrlt hplt
          · exact hwf
        have hmv1 : matVals (if r ≠ p then hSwap h mref r p else h) mref =
            (if r ≠ p then swapRows (matVals h mref) r p else matVals h mref) := by
          split_ifs
          · exact hSwap_matVals h mref r p hwf hrlt hplt
          · rfl
        have hsublen1 : (∀ q ∈ readRefs (if r ≠ p then hSwap h mref r p else h) mref,
              q ∈ readRefs h mref) ∧
            (readRefs (if r ≠ p then hSwap h mref r p else h) mref).length =
              (readRefs h mref).length := by
          split_ifs
          · rw [hSwap_readRefs h mref r p hwf.mlt]
            constructor
            · intro q hq
              exact mem_swap_subset _ r p q hrlt hplt hq
            · rw [List.length_set, List.length_set]
          · exact ⟨fun q hq => hq, rfl⟩
        have hframe1 : ∀ q, q ≠ mref →
            (if r ≠ p then hSwap h mref r p else h).getD q (HVal.ints []) =
              h.getD q (HVal.ints []) := by
          intro q hq
          split_ifs
          · exact hSwap_frame h mref r p q hq
          · rfl
        have hlen1 : (if r ≠ p then hSwap h mref r p else h).length = h.length := by
          split_ifs
          · exact hSwap_length h mref r p
          · rfl
        have hrect1 : Rect (matVals (if r ≠ p then hSwap h mref r p else h) mref)
            cols := by
          rw [hmv1]
          split_ifs
          · exact rect_swapRows _ cols r p hrect (by omega) (by omega)
          · exact hrect
        have hrlt1 : r < (readRefs (if r ≠ p then hSwap h mref r p else h)
            mref).length := by
          rw [hsublen1.2]
          exact hrlt
        have hltall : ∀ i ∈ List.range rows,
            i < (readRefs (if r ≠ p then hSwap h mref r p else h) mref).length := by
          intro i hi
          rw [hsublen1.2]
          have := List.mem_range.mp hi
          omega
        obtain ⟨hev, hef, hel, herf, hew⟩ := hElimLoop_sim (List.range rows)
          (if r ≠ p then hSwap h mref r p else h) mref r c cols hwf1 hrlt1 hrect1
          (List.nodup_range rows) hltall
        have hevv : matVals (hElimLoop (if r ≠ p then hSwap h mref r p else h)
            mref r c cols (List.range rows)) mref =
            elimStep (if r ≠ p then swapRows (matVals h mref) r p
              else matVals h mref) r c := by
          rw [hev, hmv1, ← elimRowsOn_range]
          have hlm : (if r ≠ p then swapRows (matVals h mref) r p
              else matVals h mref).length = rows := by
            split_ifs
            · rw [length_swapRows]; omega
            · omega
          rw [hlm]
        have hrows2 : rows = (readRefs (hElimLoop
            (if r ≠ p then hSwap h mref r p else h) mref r c cols
            (List.range rows)) mref).length := by
          rw [herf, hsublen1.2]
          exact hrows
        have hrect2 : Rect (matVals (hElimLoop
            (if r ≠ p then hSwap h mref r p else h) mref r c cols
            (List.range rows)) mref) cols := by
          rw [hevv]
          apply rect_elimStep
          · split_ifs
            · exact rect_swapRows _ cols r p hrect (by omega) (by omega)
            · exact hrect
          · split_ifs
            · rw [length_swapRows]; omega
            · omega
        obtain ⟨hv, hf, hl, hsub, hlrf, hw⟩ := ih _ mref (r + 1) rows cols hew
          hrows2 hrect2
        refine ⟨?_, ?_, ?_, ?_, ?_, hw⟩
        · rw [hv, hevv]
        · intro q hq hqm
          rw [hf q ?_ hqm]
          · rw [hef q ?_]
            · exact hframe1 q hqm
            · intro hc
              exact hq (hsublen1.1 q hc)
          · rw [herf]
            intro hc
            exact hq (hsublen1.1 q hc)
        · rw [hl, hel, hlen1]
        · intro q hq
          exact hsublen1.1 q (by rw [← herf]; exact hsub q hq)
        · rw [hlrf, herf, hsublen1.2]

theorem hGje_sim (h : Heap) (mref cols : Nat) (hwf : HeapMatrixWF h mref)
    (hne : 0 < (readRefs h mref).length) (hrect : Rect (matVals h mref) cols) :
    matVals (hGje h mref) mref = gauss_jordan_elimination (matVals h mref) ∧
    (∀ q, q ∉ readRefs h mref → q ≠ mref →
      (hGje h mref).getD q (HVal.ints []) = h.getD q (HVal.ints [])) ∧
    (hGje h mref).length = h.length ∧
    (∀ q ∈ readRefs (hGje h mref) mref, q ∈ readRefs h mref) ∧
    HeapMatrixWF (hGje h mref) mref := by
  have h0 : (matVals h mref).getD 0 [] = readInts h (rowRef h mref 0) :=
    matVals_getD h mref 0 hne
  have hc0 : (readInts h (rowRef h mref 0)).length = cols := by
    rw [← h0]
    exact rect_row _ cols 0 hrect (by rw [matVals_length]; exact hne)
  have hrect0 : Rect (matVals h mref) (readInts h (rowRef h mref 0)).length := by
    rw [hc0]
    exact hrect
  obtain ⟨hv, hf, hl, hsub, _, hw⟩ := hGjeGo_sim
    (List.range ((readInts h (rowRef h mref 0)).length - 1)) h mref 0
    (readRefs h mref).length (readInts h (rowRef h mref 0)).length hwf rfl hrect0
  unfold hGje gauss_jordan_elimination
  rw [h0]
  exact ⟨hv, hf, hl, hsub, hw⟩

/-- C10: `is_solvable` reduces its argument in place.  For every
well-formed non-empty rectangular 0/1 heap matrix, after the call the
rows observed through the caller's reference are exactly the
Gauss-Jordan reduction of the original row values, and the returned
boolean is `is_solvable` of the original values. -/
theorem is_solvable_mutates_in_place (h : Heap) (mref cols : Nat)
    (hwf : HeapMatrixWF h mref) (hne : 0 < (readRefs h mref).length)
    (hrect : Rect (matVals h mref) cols) (hbits : BitsM (matVals h mref)) :
    matVals (hIsSolvable h mref).1 mref =
      gauss_jordan_elimination (matVals h mref) ∧
    (hIsSolvable h mref).2 = is_solvable (matVals h mref) := by
  obtain ⟨hv, _, _, _, _⟩ := hGje_sim h mref cols hwf hne hrect
  refine ⟨hv, ?_⟩
  simp only [hIsSolvable, is_solvable]
  rw [hv]

theorem is_solvable_mutates_in_place_witness :
    matVals (hIsSolvable [HVal.ints [1, 1], HVal.refs [0]] 1).1 1 =
      gauss_jordan_elimination (matVals [HVal.ints [1, 1], HVal.refs [0]] 1) ∧
    (hIsSolvable [HVal.ints [1, 1], HVal.refs [0]] 1).2 =
      is_solvable (matVals [HVal.ints [1, 1], HVal.refs [0]] 1) :=
  is_solvable_mutates_in_place [HVal.ints [1, 1], HVal.refs [0]] 1 2
    ⟨by decide, ⟨[0], rfl⟩, by decide, by decide, by decide,
      fun q hq => by
        have hq0 : q = 0 := List.mem_singleton.mp hq
        subst hq0
        exact ⟨[1, 1], rfl⟩⟩
    (by decide) (by decide) (by decide)

/-! ### Heap model: fresh allocation in `get_solution` -/

theorem getD_snoc {α : Type} : ∀ (l : List α) (x d : α) (q : Nat),
    (l ++ [x]).getD q d =
      if q < l.length then l.getD q d else if q = l.length then x else d := by
  intro l
  induction l with
  | nil =>
    intro x d q
    cases q with
    | zero => rfl
    | succ q => simp [List.getD]
  | cons a l ih =>
    intro x d q
    cases q with
    | zero =>
      simp only [List.length_cons]
      rw [if_pos (Nat.succ_pos l.length)]
      rfl
    | succ q =>
      simp only [List.cons_append, List.getD_cons_succ, List.length_cons]
      rw [ih x d q]
      split_ifs <;> first | rfl | omega

theorem allocRows_length : ∀ (rows : List (List Nat)) (h : Heap),
    (allocRows h rows).1.length = h.length + rows.length := by
  intro rows
  induction rows with
  | nil => intro h; rfl
  | cons row rest ih =>
    intro h
    simp only [allocRows]
    rw [ih]
    simp only [List.length_append, List.length_cons, List.length_nil]
    omega

theorem allocRows_refs : ∀ (rows : List (List Nat)) (h : Heap),
    (allocRows h rows).2 = List.range' h.length rows.length := by
  intro rows
  induction rows with
  | nil => intro h; rfl
  | cons row rest ih =>
    intro h
    simp only [allocRows, List.length_cons]
    rw [ih]
    simp only [List.length_append, List.length_cons, List.length_nil]
    rw [List.range'_succ]

theorem allocRows_frame : ∀ (rows : List (List Nat)) (h : Heap) (q : Nat),
    q < h.length →
    (allocRows h rows).1.getD q (HVal.ints []) = h.getD q (HVal.ints []) := by
  intro rows
  induction rows with
  | nil => intro h q _; rfl
  | cons row rest ih =>
    intro h q hq
    simp only [allocRows]
    rw [ih _ q (by simp only [List.length_append, List.length_cons,
      List.length_nil]; omega)]
    rw [getD_snoc, if_pos hq]

theorem allocRows_cells : ∀ (rows : List (List Nat)) (h : Heap) (q : Nat),
    h.length ≤ q → q < h.length + rows.length →
    ∃ xs, (allocRows h rows).1.getD q (HVal.ints []) = HVal.ints xs := by
  intro rows
  induction rows with
  | nil =>
    intro h q h1 h2
    simp only [List.length_nil] at h2
    omega
  | cons row rest ih =>
    intro h q h1 h2
    simp only [allocRows]
    have hl1 : (h ++ [HVal.ints row]).length = h.length + 1 := by
      simp only [List.length_append, List.length_cons, List.length_nil]
    by_cases hq : q = h.length
    · subst hq
      rw [allocRows_frame rest _ h.length (by omega)]
      rw [getD_snoc, if_neg (lt_irrefl _), if_pos rfl]
      exact ⟨row, rfl⟩
    · simp only [List.length_cons] at h2
      exact ih _ q (by omega) (by omega)

theorem allocRows_read : ∀ (rows : List (List Nat)) (h : Heap) (k : Nat),
    k < rows.length →
    readInts (allocRows h rows).1 (h.length + k) = rows.getD k [] := by
  intro rows
  induction rows with
  | nil =>
    intro h k hk
    simp only [List.length_nil] at hk
    omega
  | cons row rest ih =>
    intro h k hk
    simp only [allocRows]
    have hl1 : (h ++ [HVal.ints row]).length = h.length + 1 := by
      simp only [List.length_append, List.length_cons, List.length_nil]
    cases k with
    | zero =>
      unfold readInts
      rw [Nat.add_zero]
      rw [allocRows_frame rest _ h.length (by omega)]
      rw [getD_snoc, if_neg (lt_irrefl _), if_pos rfl]
      rfl
    | succ k =>
      have hstep : h.length + (k + 1) = (h ++ [HVal.ints row]).length + k := by
        simp only [List.length_append, List.length_cons, List.length_nil]
        omega
      rw [hstep, ih _ k (by simp only [List.length_cons] at hk; omega)]
      rfl

theorem allocRows_readRefs (rows : List (List Nat)) (h : Heap) :
    readRefs ((allocRows h rows).1 ++ [HVal.refs (allocRows h rows).2])
      (allocRows h rows).1.length = List.range' h.length rows.length := by
  unfold readRefs
  rw [getD_snoc, if_neg (lt_irrefl _), if_pos rfl, allocRows_refs]

theorem allocRows_matVals (rows : List (List Nat)) (h : Heap) :
    matVals ((allocRows h rows).1 ++ [HVal.refs (allocRows h rows).2])
      (allocRows h rows).1.length = rows := by
  unfold matVals
  rw [allocRows_readRefs]
  apply ext_getD_rows
  · rw [List.length_map, List.length_range']
  · intro k hk
    rw [List.length_map, List.length_range'] at hk
    rw [List.getD_eq_getElem?_getD, List.getElem?_map,
      List.getElem?_eq_getElem (by rw [List.length_range']; exact hk)]
    simp only [Option.map_some', Option.getD_some, List.getElem_range']
    have hlt : h.length + 1 * k < (allocRows h rows).1.length := by
      rw [allocRows_length]
      omega
    have hsame : readInts ((allocRows h rows).1 ++
        [HVal.refs (allocRows h rows).2]) (h.length + 1 * k) =
        readInts (allocRows h rows).1 (h.length + 1 * k) := by
      unfold readInts
      rw [getD_snoc, if_pos hlt]
    rw [hsame, show h.length + 1 * k = h.length + k from by omega,
      allocRows_read rows h k hk]

theorem allocRows_WF (rows : List (List Nat)) (h : Heap) :
    HeapMatrixWF ((allocRows h rows).1 ++ [HVal.refs (allocRows h rows).2])
      (allocRows h rows).1.length := by
  have hlen2 : ((allocRows h rows).1 ++
      [HVal.refs (allocRows h rows).2]).length =
      (allocRows h rows).1.length + 1 := by
    simp
  refine ⟨by rw [hlen2]; omega, ⟨(allocRows h rows).2, ?_⟩, ?_, ?_, ?_, ?_⟩
  · rw [getD_snoc, if_neg (lt_irrefl _), if_pos rfl]
  · rw [allocRows_readRefs]
    exact List.nodup_range' _ _ 1 one_pos
  · intro q hq
    rw [allocRows_readRefs] at hq
    have := List.mem_range'_1.mp hq
    rw [hlen2, allocRows_length]
    omega
  · intro q hq
    rw [allocRows_readRefs] at hq
    have := List.mem_range'_1.mp hq
    rw [allocRows_length]
    omega
  · intro q hq
    rw [allocRows_readRefs] at hq
    have hqb := List.mem_range'_1.mp hq
    have hql : q < (allocRows h rows).1.length := by
      rw [allocRows_length]
      omega
    obtain ⟨xs, hxs⟩ := allocRows_cells rows h q hqb.1 hqb.2
    refine ⟨xs, ?_⟩
    rw [getD_snoc, if_pos hql]
    exact hxs

theorem readInts_congr_cell (g g2 : Heap) (q : Nat)
    (hc : g.getD q (HVal.ints []) = g2.getD q (HVal.ints [])) :
    readInts g q = readInts g2 q := by
  unfold readInts
  rw [hc]

set_option maxHeartbeats 1600000 in
/-- C9: `get_solution` never mutates its board argument: for every
`n ≥ 1` and every heap cell holding a board of `n²` bits, the board
cell holds the same list after the call, since the augmented matrix is
built from freshly allocated rows and elimination writes only to those
rows and to the matrix cell. -/
theorem get_solution_preserves_board (h : Heap) (bref n : Nat)
    (hb : bref < h.length) (hn : 1 ≤ n)
    (hblen : (readInts h bref).length = n * n)
    (hbits : Bits (readInts h bref)) :
    readInts (hGetSolution h bref n).1 bref = readInts h bref := by
  have hwf2 := allocRows_WF (create_augmented_matrix
    (create_vector_representations n) (readInts h bref)) h
  have hrefs2 := allocRows_readRefs (create_augmented_matrix
    (create_vector_representations n) (readInts h bref)) h
  have hmv2 := allocRows_matVals (create_augmented_matrix
    (create_vector_representations n) (readInts h bref)) h
  have hlenrows : (create_augmented_matrix
      (create_vector_representations n) (readInts h bref)).length = n * n := by
    rw [cam_length, cvr_length]
  have hpos : 0 < (create_augmented_matrix
      (create_vector_representations n) (readInts h bref)).length := by
    rw [hlenrows]
    have := Nat.mul_le_mul hn hn
    omega
  have hs1len := allocRows_length (create_augmented_matrix
    (create_vector_representations n) (readInts h bref)) h
  have hne : 0 < (readRefs ((allocRows h (create_augmented_matrix
      (create_vector_representations n) (readInts h bref))).1 ++
      [HVal.refs (allocRows h (create_augmented_matrix
        (create_vector_representations n) (readInts h bref))).2])
      (allocRows h (create_augmented_matrix
        (create_vector_representations n) (readInts h bref))).1.length).length := by
    rw [hrefs2, List.length_range']
    exact hpos
  have hrect2 : Rect (matVals ((allocRows h (create_augmented_matrix
      (create_vector_representations n) (readInts h bref))).1 ++
      [HVal.refs (allocRows h (create_augmented_matrix
        (create_vector_representations n) (readInts h bref))).2])
      (allocRows h (create_augmented_matrix
        (create_vector_representations n) (readInts h bref))).1.length)
      (n * n + 1) := by
    rw [hmv2]
    exact cam_rect n _
  have hbni : bref ∉ readRefs ((allocRows h (create_augmented_matrix
      (create_vector_representations n) (readInts h bref))).1 ++
      [HVal.refs (allocRows h (create_augmented_matrix
        (create_vector_representations n) (readInts h bref))).2])
      (allocRows h (create_augmented_matrix
        (create_vector_representations n) (readInts h bref))).1.length := by
    rw [hrefs2]
    intro hc
    have := List.mem_range'_1.mp hc
    omega
  have hbnm : bref ≠ (allocRows h (create_augmented_matrix
      (create_vector_representations n) (readInts h bref))).1.length := by
    omega
  obtain ⟨hv1, hf1, _, hsub1, hw1⟩ := hGje_sim ((allocRows h
      (create_augmented_matrix (create_vector_representations n)
        (readInts h bref))).1 ++
      [HVal.refs (allocRows h (create_augmented_matrix
        (create_vector_representations n) (readInts h bref))).2])
    ((allocRows h (create_augmented_matrix
      (create_vector_representations n) (readInts h bref))).1.length)
    (n * n + 1) hwf2 hne hrect2
  have hcell1 : (hGje ((allocRows h (create_augmented_matrix
      (create_vector_representations n) (readInts h bref))).1 ++
      [HVal.refs (allocRows h (create_augmented_matrix
        (create_vector_representations n) (readInts h bref))).2])
      ((allocRows h (create_augmented_matrix
        (create_vector_representations n) (readInts h bref))).1.length)).getD
        bref (HVal.ints []) = h.getD bref (HVal.ints []) := by
    rw [hf1 bref hbni hbnm, getD_snoc, if_pos (by omega)]
    exact allocRows_frame _ h bref hb
  have hne1 : 0 < (readRefs (hGje ((allocRows h (create_augmented_matrix
      (create_vector_representations n) (readInts h bref))).1 ++
      [HVal.refs (allocRows h (create_augmented_matrix
        (create_vector_representations n) (readInts h bref))).2])
      ((allocRows h (create_augmented_matrix
        (create_vector_representations n) (readInts h bref))).1.length))
      ((allocRows h (create_augmented_matrix
        (create_vector_representations n) (readInts h bref))).1.length)).length := by
    rw [← matVals_length, hv1, length_gje, matVals_length]
    exact hne
  have hrect1 : Rect (matVals (hGje ((allocRows h (create_augmented_matrix
      (create_vector_representations n) (readInts h bref))).1 ++
      [HVal.refs (allocRows h (create_augmented_matrix
        (create_vector_representations n) (readInts h bref))).2])
      ((allocRows h (create_augmented_matrix
        (create_vector_representations n) (readInts h bref))).1.length))
      ((allocRows h (create_augmented_matrix
        (create_vector_representations n) (readInts h bref))).1.length))
      (n * n + 1) := by
    rw [hv1]
    exact rect_gje _ _ hrect2
  have hbni1 : bref ∉ readRefs (hGje ((allocRows h (create_augmented_matrix
      (create_vector_representations n) (readInts h bref))).1 ++
      [HVal.refs (allocRows h (create_augmented_matrix
        (create_vector_representations n) (readInts h bref))).2])
      ((allocRows h (create_augmented_matrix
        (create_vector_representations n) (readInts h bref))).1.length))
      ((allocRows h (create_augmented_matrix
        (create_vector_representations n) (readInts h bref))).1.length) :=
    fun hc => hbni (hsub1 bref hc)
  obtain ⟨_, hf2, _, _, _⟩ := hGje_sim (hGje ((allocRows h
      (create_augmented_matrix (create_vector_representations n)
        (readInts h bref))).1 ++
      [HVal.refs (allocRows h (create_augmented_matrix
        (create_vector_representations n) (readInts h bref))).2])
      ((allocRows h (create_augmented_matrix
        (create_vector_representations n) (readInts h bref))).1.length))
    ((allocRows h (create_augmented_matrix
      (create_vector_representations n) (readInts h bref))).1.length)
    (n * n + 1) hw1 hne1 hrect1
  simp only [hGetSolution, hIsSolvable]
  split_ifs with ht
  · exact readInts_congr_cell _ h bref hcell1
  · exact readInts_congr_cell _ h bref (by rw [hf2 bref hbni1 hbnm]; exact hcell1)

theorem get_solution_preserves_board_witness :
    readInts (hGetSolution [HVal.ints [1]] 0 1).1 0 =
      readInts [HVal.ints [1]] 0 :=
  get_solution_preserves_board [HVal.ints [1]] 0 1 (by decide) (by decide)
    (by decide) (by decide)

end LightsOut
